

import Mathlib

/-!
Verification development for the agent-orchestration kernel of AgentsSwarmUI.

The definitions below are a shallow embedding of the JavaScript source:
`server/src/services/agentTools.js` (tool dispatcher, tool-call parser,
command blocklist) and the agent manager (conversation engine, delegation
parser, registry update).  External effects (the real filesystem, the shell,
the LLM provider stream) are modelled by explicit oracle values that the
embedded functions consume; everything else follows the source line by line.
-/

set_option autoImplicit false


namespace SwarmSpec


/-- The JavaScript `\s` character class (ASCII members plus NBSP; the rarely
used higher Unicode members are omitted, no input in this development uses
them). -/
def jsWs (c : Char) : Bool :=
  c = ' ' || c = '\t' || c = '\n' || c = '\r' ||
  c = Char.ofNat 11 || c = Char.ofNat 12 || c = Char.ofNat 160


/-- JavaScript line terminators, which `.` in a regex without the `s` flag
does not match. -/
def isLineTerm (c : Char) : Bool :=
  c = '\n' || c = '\r' || c = Char.ofNat 0x2028 || c = Char.ofNat 0x2029


/-- JavaScript `String.prototype.trim()` over the `jsWs` class. -/
def jsTrim (s : String) : String :=
  String.mk (((s.data.dropWhile jsWs).reverse.dropWhile jsWs).reverse)


/-!
All string scanning below is done with structurally recursive helpers over
`String.data`, so that every definition reduces inside the kernel and the
concrete witnesses can be checked by `decide`/`rfl`.  Each helper mirrors
the corresponding JavaScript string primitive.
-/

/-- `String.prototype.startsWith`. -/
def strStartsWith (s p : String) : Bool := p.data.isPrefixOf s.data


/-- `String.prototype.endsWith`. -/
def strEndsWith (s p : String) : Bool := p.data.isSuffixOf s.data


/-- `String.prototype.slice(0, n)` (code points; the sources only truncate
ASCII shell output, where code points and UTF-16 units agree). -/
def strTake (s : String) (n : Nat) : String := String.mk (s.data.take n)


/-- `String.prototype.slice(n)`. -/
def strDrop (s : String) (n : Nat) : String := String.mk (s.data.drop n)


def splitOnCharCore (sep : Char) : List Char → List Char → List String
  | acc, [] => [String.mk acc.reverse]
  | acc, c :: cs =>
    if c = sep then String.mk acc.reverse :: splitOnCharCore sep [] cs
    else splitOnCharCore sep (c :: acc) cs


/-- `String.prototype.split(sep)` for a one-character separator. -/
def splitOnChar (sep : Char) (s : String) : List String := splitOnCharCore sep [] s.data


/-- The single-quote character (U+0027). -/
def sq : Char := Char.ofNat 39


/-- The backtick character (U+0060). -/
def bq : Char := Char.ofNat 96


def isQuoteChar (c : Char) : Bool := c = '"' || c = sq


/-- `sanitizeArg` from agentTools.js: strip a run of surrounding double or
single quotes (regex `^["']+|["']+$`), then trim. -/
def sanitizeArg (s : String) : String :=
  jsTrim (String.mk (((s.data.dropWhile isQuoteChar).reverse.dropWhile isQuoteChar).reverse))


/-! ## Node `path` (posix) primitives used by the dispatcher -/

/-- Core of Node's `path.normalize`: resolve `.` and `..` segments.
`allowUp` is true for relative paths (leading `..` segments are kept) and
false for absolute paths (they are dropped at the root). -/
def normSegs (allowUp : Bool) : List String → List String → List String
  | acc, [] => acc.reverse
  | acc, seg :: rest =>
    if seg = "" || seg = "." then normSegs allowUp acc rest
    else if seg = ".." then
      match acc with
      | [] => if allowUp then normSegs allowUp [".."] rest else normSegs allowUp [] rest
      | top :: tl =>
        if top = ".." then normSegs allowUp (".." :: top :: tl) rest
        else normSegs allowUp tl rest
    else normSegs allowUp (seg :: acc) rest


/-- Node `path.normalize` (posix). -/
def pathNormalize (s : String) : String :=
  if s = "" then "." else
  let isAbs := strStartsWith s "/"
  let trailing := strEndsWith s "/"
  let body := String.intercalate "/" (normSegs (!isAbs) [] (splitOnChar '/' s))
  if body = "" then
    (if isAbs then "/" else if trailing then "./" else ".")
  else
    (if isAbs then "/" ++ body else body) ++ (if trailing then "/" else "")


/-- Node `path.join` (posix) restricted to two arguments, as used by the
dispatcher. -/
def pathJoin (a b : String) : String :=
  let parts := [a, b].filter (· ≠ "")
  if parts = [] then "." else pathNormalize (String.intercalate "/" parts)


/-- Length of the shared leading run of two segment lists. -/
def sharedLeadLen : List String → List String → Nat
  | a :: as_, b :: bs => if a = b then sharedLeadLen as_ bs + 1 else 0
  | _, _ => 0


/-- Node `path.relative` (posix) for absolute arguments — the only way the
source calls it (`basePath` is absolute and both branches pass an absolute
second argument). -/
def pathRelative (f t : String) : String :=
  let fsegs := normSegs false [] (splitOnChar '/' f)
  let tsegs := normSegs false [] (splitOnChar '/' t)
  if fsegs = tsegs then "" else
  let k := sharedLeadLen fsegs tsegs
  String.intercalate "/" (List.replicate (fsegs.length - k) ".." ++ tsegs.drop k)


/-- Node `path.dirname` (posix), for the paths the dispatcher produces. -/
def pathDirname (p : String) : String :=
  let segs := (splitOnChar '/' p).filter (· ≠ "")
  if strStartsWith p "/" then "/" ++ String.intercalate "/" segs.dropLast
  else if segs.length ≤ 1 then "." else String.intercalate "/" segs.dropLast


def PROJECTS_BASE : String := "/projects"


/-- `normalizePath` from agentTools.js: strip a leading project base if the
LLM passed an absolute path. -/
def normalizePath (pathArg basePath : String) : String :=
  let p := sanitizeArg pathArg
  let p :=
    if strStartsWith p basePath then
      let r := pathRelative basePath p
      if r = "" then "." else r
    else if strStartsWith p (PROJECTS_BASE ++ "/") then
      let r := pathRelative basePath (pathJoin PROJECTS_BASE (strDrop p (PROJECTS_BASE.length + 1)))
      if r = "" then "." else r
    else if strStartsWith p "/" then
      String.mk (p.data.dropWhile (· = '/'))
    else p
  if p = "" then "." else p


/-! ## Filesystem model

The host filesystem is modelled as an association list of absolute file
paths to contents plus a list of existing directories.  Node calls map as:
`access` = membership of the directory, `readFile` = association lookup
(`ENOENT` when absent), `writeFile` = insert/overwrite, `mkdir {recursive}` =
add the directory, `readdir` = enumerate the immediate children. -/

structure Fs where
  files : List (String × String)
  dirs : List String
deriving DecidableEq, Repr


def Fs.read (fs : Fs) (p : String) : Option String :=
  (fs.files.find? (fun e => e.1 = p)).map (·.2)


def Fs.write (fs : Fs) (p c : String) : Fs :=
  { fs with files := (p, c) :: fs.files.filter (fun e => e.1 ≠ p) }


def Fs.hasDir (fs : Fs) (p : String) : Bool := fs.dirs.contains p


def Fs.mkdirRec (fs : Fs) (p : String) : Fs :=
  if fs.hasDir p then fs else { fs with dirs := p :: fs.dirs }


/-- Is `name` an immediate child entry name of directory `d` for path `p`? -/
def isChildOf (d p : String) : Option String :=
  if strStartsWith p (d ++ "/") then
    let rest := strDrop p (d.length + 1)
    if rest ≠ "" && !(rest.data.contains '/') then some rest else none
  else none


/-- `readdir` with file types: names of immediate children, tagged
`true` for directories. -/
def Fs.readdir (fs : Fs) (d : String) : List (String × Bool) :=
  (fs.dirs.filterMap (fun p => (isChildOf d p).map (·, true))) ++
  (fs.files.filterMap (fun e => (isChildOf d e.1).map (·, false)))


/-! ## Tool results and the shell oracle -/

structure ToolResult where
  success : Bool
  result : Option String := none
  error : Option String := none
  isErrorReport : Bool := false
deriving DecidableEq, Repr


/-- Outcome of one shell invocation (the oracle for `child_process.exec`). -/
structure ExecOut where
  exitCode : Nat
  stdout : String
  stderr : String
  killed : Bool := false
deriving DecidableEq, Repr


/-- The error object a rejected promisified `exec` carries. -/
structure JsErr where
  message : String
  code : Nat
  stdout : String
  stderr : String
deriving DecidableEq, Repr


/-- Message of the error `child_process.exec` constructs on failure
(`Command failed: <cmd>\n<stderr>`; abbreviated the same way for a
timeout kill). -/
def execFailMsg (cmd : String) (o : ExecOut) : String :=
  "Command failed: " ++ cmd ++ "\n" ++ o.stderr


/-- Promisified `exec`: resolves with `(stdout, stderr)` on a clean zero
exit, rejects otherwise (non-zero exit code or timeout kill). -/
def runExec (cmd : String) (o : ExecOut) : Except JsErr (String × String) :=
  if o.killed || o.exitCode ≠ 0 then
    .error ⟨execFailMsg cmd o, o.exitCode, o.stdout, o.stderr⟩
  else .ok (o.stdout, o.stderr)


/-! ## Blocklist regexes

A small regex interpreter covering exactly the constructs the eight
blocklist patterns use: case-insensitive literals, `\s`, `.` (not matching a
line terminator), `*` and `+` on a single atom, unanchored `test`. -/

inductive RAtom
  | lit (c : Char)
  | ws
  | dot
deriving DecidableEq, Repr


inductive RItem
  | one (a : RAtom)
  | star (a : RAtom)
  | plus (a : RAtom)
deriving DecidableEq, Repr


def RAtom.accepts : RAtom → Char → Bool
  | .lit c, x => c.toLower = x.toLower
  | .ws, x => jsWs x
  | .dot, x => !(isLineTerm x)


/-- Does the pattern match a prefix of the text (backtracking existence
test)?  Structural recursion on explicit fuel so the kernel can evaluate it;
every recursive call strictly decreases the lexicographic measure
(text length, pattern length), so any fuel of at least
`(text length + 1) * (pattern length + 1)` (the longest possible strictly
decreasing chain) never runs out. -/
def rHereF : Nat → List RItem → List Char → Bool
  | 0, _, _ => false
  | _ + 1, [], _ => true
  | _ + 1, .one _ :: _, [] => false
  | f + 1, .one a :: ps, c :: cs => a.accepts c && rHereF f ps cs
  | f + 1, .star a :: ps, cs =>
      rHereF f ps cs ||
      (match cs with
       | [] => false
       | c :: cs2 => a.accepts c && rHereF f (.star a :: ps) cs2)
  | _ + 1, .plus _ :: _, [] => false
  | f + 1, .plus a :: ps, c :: cs => a.accepts c && rHereF f (.star a :: ps) cs


def rHere (ps : List RItem) (cs : List Char) : Bool :=
  rHereF ((cs.length + 1) * (ps.length + 1)) ps cs


/-- Unanchored regex `test`: does the pattern match anywhere in `cs`? -/
def rFind (ps : List RItem) : List Char → Bool
  | [] => rHere ps []
  | c :: cs => rHere ps (c :: cs) || rFind ps cs


/-- A sequence of case-insensitive literal atoms. -/
def lits (s : String) : List RItem := s.data.map (fun c => RItem.one (RAtom.lit c))


/-- The eight blocklist patterns of `runCommand`, in source order:
`rm\s+-rf`, `rm\s+.*\/`, `curl.*\|.*sh`, `wget.*\|.*sh`, `>\s*\/dev`,
`dd\s+if=`, `mkfs`, `format` (all with the `i` flag). -/
def blockedPatterns : List (List RItem) :=
  [ lits "rm" ++ [.plus .ws] ++ lits "-rf",
    lits "rm" ++ [.plus .ws, .star .dot] ++ lits "/",
    lits "curl" ++ [.star .dot] ++ lits "|" ++ [.star .dot] ++ lits "sh",
    lits "wget" ++ [.star .dot] ++ lits "|" ++ [.star .dot] ++ lits "sh",
    lits ">" ++ [.star .ws] ++ lits "/dev",
    lits "dd" ++ [.plus .ws] ++ lits "if=",
    lits "mkfs",
    lits "format" ]


def commandBlocked (command : String) : Bool :=
  blockedPatterns.any (fun p => rFind p command.data)


/-! ## The individual tools -/

def traversalErr : ToolResult :=
  { success := false, error := some "Path traversal not allowed" }


def readFileFromProject (fs : Fs) (basePath filePath : String) : ToolResult × Fs :=
  let fullPath := pathJoin basePath filePath
  if !(strStartsWith fullPath basePath) then (traversalErr, fs)
  else
    match fs.read fullPath with
    | some content => ({ success := true, result := some content }, fs)
    | none => ({ success := false, error := some ("File not found: " ++ filePath) }, fs)


def writeFileToProject (fs : Fs) (basePath filePath content : String) : ToolResult × Fs :=
  let fullPath := pathJoin basePath filePath
  if !(strStartsWith fullPath basePath) then (traversalErr, fs)
  else
    let fs := (fs.mkdirRec (pathDirname fullPath)).write fullPath content
    ({ success := true,
       result := some ("File written: " ++ filePath ++ " (" ++
         toString content.utf8ByteSize ++ " bytes)") }, fs)


/-- "Comes no later than" for directory entries: directories before files,
then by name (the source's `localeCompare` is modelled as code-point
order, which agrees on ASCII names). -/
def entLe (x y : String × Bool) : Bool :=
  if x.2 ≠ y.2 then x.2 else decide (x.1 ≤ y.1)


def insEntry (x : String × Bool) : List (String × Bool) → List (String × Bool)
  | [] => [x]
  | y :: ys => if entLe x y then x :: y :: ys else y :: insEntry x ys


/-- Stable sort of directory entries (insertion sort; `Array.sort` with the
source's comparator produces the same ordering for this total preorder). -/
def sortEntries : List (String × Bool) → List (String × Bool)
  | [] => []
  | x :: xs => insEntry x (sortEntries xs)


/-- `listDirectory`: dotfiles are dropped, directories sort before files,
names are compared with plain string order (the source uses
`localeCompare`, which agrees on the ASCII names this development uses). -/
def listDirectory (fs : Fs) (basePath dirPath : String) : ToolResult × Fs :=
  let fullPath := pathJoin basePath dirPath
  if !(strStartsWith fullPath basePath) then (traversalErr, fs)
  else if !(fs.hasDir fullPath) then
    -- `readdir` throws ENOENT, which the dispatcher's catch turns into a
    -- failed ToolResult carrying the error message.
    ({ success := false, error := some ("ENOENT: no such file or directory, scandir " ++ fullPath) }, fs)
  else
    let items := sortEntries ((fs.readdir fullPath).filter (fun e => !(strStartsWith e.1 ".")))
    let rendered := items.map (fun i => (if i.2 then "📁 " else "📄 ") ++ i.1)
    let body := String.intercalate "\n" rendered
    ({ success := true, result := some (if body = "" then "(empty directory)" else body) }, fs)


def appendToFile (fs : Fs) (basePath filePath content : String) : ToolResult × Fs :=
  let fullPath := pathJoin basePath filePath
  if !(strStartsWith fullPath basePath) then (traversalErr, fs)
  else
    let fs := fs.mkdirRec (pathDirname fullPath)
    let existing := (fs.read fullPath).getD ""
    let newContent := existing ++ (if strEndsWith existing "\n" then "" else "\n") ++ content
    let fs := fs.write fullPath newContent
    ({ success := true, result := some ("Content appended to: " ++ filePath) }, fs)


def runCommand (command : String) (o : ExecOut) : ToolResult :=
  if commandBlocked command then
    { success := false, error := some "Command blocked for security reasons" }
  else
    match runExec command o with
    | .ok (stdout, stderr) =>
        let output := if stdout ≠ "" then stdout else if stderr ≠ "" then stderr else "(no output)"
        { success := true, result := some (strTake output 10000) }
    | .error e =>
        { success := false,
          error := some e.message,
          result := some (if e.stderr ≠ "" then e.stderr else e.stdout) }


/-- Strip the first occurrence of `pat` from `s` (JS `replace` with a plain
string pattern), used for `./`-stripping in `searchInFiles`. -/
def replaceFirst (s pat : String) : String :=
  match s.data, pat.data with
  | _, [] => s
  | cs, ps => String.mk (go cs ps)
where
  go : List Char → List Char → List Char
    | [], _ => []
    | c :: cs, ps =>
      if (c :: cs).take ps.length = ps then (c :: cs).drop ps.length
      else c :: go cs ps


/-- `searchInFiles`: both greps run through the shell, so they consume shell
oracle entries — one for the file-list grep, then one per shown file. -/
def searchInFiles (pattern query : String) (oracles : List ExecOut) : ToolResult :=
  let cmd := "grep -r -l -i \"" ++ query ++ "\" --include=\"" ++ pattern ++ "\" . 2>/dev/null | head -20"
  match runExec cmd (oracles.getD 0 ⟨1, "", "", false⟩) with
  | .error e =>
      if e.code = 1 then { success := true, result := some "No matches found" }
      else { success := false, error := some e.message }
  | .ok (stdout, _) =>
      let files := (splitOnChar '\n' (jsTrim stdout)).filter (· ≠ "")
      if files = [] then { success := true, result := some "No matches found" }
      else
        let shown := (files.take 5).enum.map (fun fi =>
          let cleanPath := replaceFirst fi.2 "./"
          match runExec ("grep -n -i \"" ++ query ++ "\" \"" ++ fi.2 ++ "\" | head -5")
              (oracles.getD (fi.1 + 1) ⟨1, "", "", false⟩) with
          | .ok (out, _) => "📄 " ++ cleanPath ++ ":\n" ++ jsTrim out
          | .error _ => "📄 " ++ cleanPath)
        let shown := if files.length > 5 then
          shown ++ ["... and " ++ toString (files.length - 5) ++ " more files"] else shown
        { success := true, result := some (String.intercalate "\n\n" shown) }


/-- `args[0] || 'Unknown error'`. -/
def orUnknown (s : String) : String := if s = "" then "Unknown error" else s


/-- `executeTool` from agentTools.js.  `execs` is the shell oracle consumed
by `run_command` / `search_files`. -/
def executeTool (toolName : String) (args : List String) (projectPath : String)
    (fs : Fs) (execs : List ExecOut) : ToolResult × Fs :=
  if toolName = "report_error" then
    ({ success := true, result := some ("Error reported: " ++ orUnknown (args.getD 0 "")),
       isErrorReport := true }, fs)
  else
    let basePath := pathJoin PROJECTS_BASE projectPath
    if !(fs.hasDir basePath) then
      ({ success := false, error := some ("Project path not accessible: " ++ projectPath) }, fs)
    else
      let cleanArgs := args.map sanitizeArg
      if toolName = "read_file" then
        readFileFromProject fs basePath (normalizePath (cleanArgs.getD 0 "") basePath)
      else if toolName = "write_file" then
        writeFileToProject fs basePath (normalizePath (cleanArgs.getD 0 "") basePath) (cleanArgs.getD 1 "")
      else if toolName = "list_dir" then
        listDirectory fs basePath (normalizePath (orDot (cleanArgs.getD 0 "")) basePath)
      else if toolName = "search_files" then
        (searchInFiles (cleanArgs.getD 0 "") (cleanArgs.getD 1 "") execs, fs)
      else if toolName = "run_command" then
        (runCommand (cleanArgs.getD 0 "") (execs.getD 0 ⟨1, "", "", false⟩), fs)
      else if toolName = "append_file" then
        appendToFile fs basePath (normalizePath (cleanArgs.getD 0 "") basePath) (cleanArgs.getD 1 "")
      else
        ({ success := false, error := some ("Unknown tool: " ++ toolName) }, fs)
where
  /-- `cleanArgs[0] || '.'` for `list_dir`. -/
  orDot (s : String) : String := if s = "" then "." else s


/-! ## The delegation parser (`_parseDelegations` in the agent manager)

The source first collects code-block ranges with the global regex
`/```[\s\S]*?```|`[^`]*`/g`, then scans for `/@delegate\s*\(/gi` matches,
skipping any match whose start index lies inside a collected range, and
hand-parses the argument list after each surviving match.  The two global
scans are reproduced below as jump scanners over `String.data`, with
structural fuel equal to the text length: every regex match here is at
least one character long, so that fuel never runs out. -/

def startsTriple : List Char → Bool
  | a :: b :: c :: _ => a = bq && b = bq && c = bq
  | _ => false


/-- Index of the first position where a triple backtick starts. -/
def findTripleIdx : List Char → Option Nat
  | [] => none
  | c :: cs => if startsTriple (c :: cs) then some 0 else (findTripleIdx cs).map (· + 1)


/-- Index of the first backtick. -/
def closeIdx : List Char → Option Nat
  | [] => none
  | c :: cs => if c = bq then some 0 else (closeIdx cs).map (· + 1)


/-- Length of an inline-span match `` `[^`]*` `` at the head of the text. -/
def inlineLen : List Char → Option Nat
  | [] => none
  | c :: cs => if c = bq then (closeIdx cs).map (fun k => k + 2) else none


/-- Length of the code-block regex match at the head of the text: the lazy
fenced alternative is preferred; if it has no closing fence the inline
alternative is tried at the same position (regex alternation). -/
def tryMatchAt (cs : List Char) : Option Nat :=
  if startsTriple cs then
    match findTripleIdx (cs.drop 3) with
    | some k => some (3 + k + 3)
    | none => inlineLen cs
  else inlineLen cs


/-- The global scan collecting `{start, end}` ranges of code-block matches.
On a match of length `len` the regex engine resumes at `lastIndex =
start + len`; otherwise it advances one position. -/
def scanBlocksF : Nat → List Char → Nat → List (Nat × Nat)
  | 0, _, _ => []
  | _ + 1, [], _ => []
  | f + 1, c :: rest, i =>
    match tryMatchAt (c :: rest) with
    | some len => (i, i + len) :: scanBlocksF f ((c :: rest).drop len) (i + len)
    | none => scanBlocksF f rest (i + 1)


def codeBlockRanges (s : String) : List (Nat × Nat) :=
  scanBlocksF s.data.length s.data 0


def insideRanges (rs : List (Nat × Nat)) (pos : Nat) : Bool :=
  rs.any (fun r => r.1 ≤ pos && pos < r.2)


/-- Case-insensitive literal prefix: returns the rest on success. -/
def stripCIChars : List Char → List Char → Option (List Char)
  | [], cs => some cs
  | _ :: _, [] => none
  | p :: ps, c :: cs => if p.toLower = c.toLower then stripCIChars ps cs else none


/-- Length of a `/@delegate\s*\(/i` match at the head of the text. -/
def matchDelegateHead (cs : List Char) : Option Nat :=
  match stripCIChars "@delegate".data cs with
  | none => none
  | some rest =>
    let wsn := (rest.takeWhile jsWs).length
    match rest.drop wsn with
    | '(' :: _ => some (9 + wsn + 1)
    | _ => none


/-- `text.indexOf(',', startAfterParen)`: split at the first comma. -/
def splitAtComma : List Char → Option (List Char × List Char)
  | [] => none
  | c :: cs =>
    if c = ',' then some ([], cs)
    else (splitAtComma cs).map (fun p => (c :: p.1, p.2))


/-- The task-string scan of `_parseDelegations`: walk the text after the
opening quote; a backslash keeps itself and the next character; the
closing quote must be followed by optional whitespace and `)`; any other
quote character is part of the task.  Returns the accumulated task
content (without the closing quote) iff the closing delimiter was found. -/
def scanTask (q : Char) : List Char → Option (List Char)
  | [] => none
  | c :: cs =>
    if c = '\\' then
      match cs with
      | [] => none
      | c2 :: cs2 => (scanTask q cs2).map (fun t => c :: c2 :: t)
    else if c = q then
      match cs.dropWhile jsWs with
      | ')' :: _ => some []
      | _ => (scanTask q cs).map (fun t => c :: t)
    else (scanTask q cs).map (fun t => c :: t)


structure Delegation where
  agentName : String
  task : String
deriving DecidableEq, Repr


/-- Parse the argument list after `@delegate...(`: agent name up to the
first comma (trimmed), then a quoted task; the delegation is kept only
when the closing delimiter was found and both fields are non-empty after
trimming. -/
def parseBody (cs : List Char) : Option Delegation :=
  match splitAtComma cs with
  | none => none
  | some (pre, rest) =>
    let agentName := jsTrim (String.mk pre)
    match rest.dropWhile jsWs with
    | q :: rest2 =>
      if q = '"' || q = sq then
        match scanTask q rest2 with
        | some taskChars =>
          let task := jsTrim (String.mk taskChars)
          if agentName ≠ "" && task ≠ "" then some ⟨agentName, task⟩ else none
        | none => none
      else none
    | [] => none


/-- The `/@delegate\s*\(/gi` scan: on a head match the body is parsed from
the position right after `(` (the regex `lastIndex`, where the scan also
resumes); a match whose start index lies inside a code-block range is
skipped. -/
def scanDelegationsF : Nat → List (Nat × Nat) → List Char → Nat → List Delegation
  | 0, _, _, _ => []
  | _ + 1, _, [], _ => []
  | f + 1, ranges, c :: rest, i =>
    match matchDelegateHead (c :: rest) with
    | some len =>
      let tail := scanDelegationsF f ranges ((c :: rest).drop len) (i + len)
      if insideRanges ranges i then tail
      else
        match parseBody ((c :: rest).drop len) with
        | some d => d :: tail
        | none => tail
    | none => scanDelegationsF f ranges rest (i + 1)


def parseDelegations (text : String) : List Delegation :=
  scanDelegationsF text.data.length (codeBlockRanges text) text.data 0


/-- A triple-backtick fence. -/
def fence : String := String.mk [bq, bq, bq]


/-- A triple-backtick fenced block with the given content. -/
def fenced (inner : String) : String := fence ++ inner ++ fence


/-! ## The tool-call parser (`parseToolCalls` in agentTools.js)

Phase 1 of the source parses JSON bodies of `<tool_call>...</tool_call>`
blocks with `JSON.parse`; that external JSON parser is abstracted here as
an input list `jsonCalls` that the theorems quantify over.  Phase 2 — the
wrapper-tag stripping and the five `@tool(...)` regex passes, including the
duplicate suppression of the unquoted pass — is embedded in full below. -/

structure ToolCall where
  tool : String
  args : List String
deriving DecidableEq, Repr


/-- Consume one optional character (regex `x?`). -/
def optChar (x : Char) : List Char → (Nat × List Char)
  | [] => (0, [])
  | c :: cs => if c = x then (1, cs) else (0, c :: cs)


/-- Length of a `/<\|?\/?word\|?>/i` match at the head of the text. -/
def matchTagAt (word : List Char) (cs : List Char) : Option Nat :=
  match cs with
  | '<' :: r1 =>
    let (n1, r2) := optChar '|' r1
    let (n2, r3) := optChar '/' r2
    match stripCIChars word r3 with
    | none => none
    | some r4 =>
      let (n3, r5) := optChar '|' r4
      match r5 with
      | '>' :: _ => some (1 + n1 + n2 + word.length + n3 + 1)
      | _ => none
  | _ => none


/-- Length of a `/\[TOOL_CALLS?\]/i` match at the head of the text. -/
def matchBracketTag (cs : List Char) : Option Nat :=
  match cs with
  | '[' :: r1 =>
    match stripCIChars "TOOL_CALL".data r1 with
    | none => none
    | some r2 =>
      match r2 with
      | c :: r3 =>
        if c.toLower = 's' then
          match r3 with
          | ']' :: _ => some (1 + 9 + 1 + 1)
          | _ => none
        else if c = ']' then some (1 + 9 + 1)
        else none
      | [] => none
  | _ => none


/-- `String.prototype.replace` with a global regex and empty replacement:
delete every match, scanning left to right (every match here is at least
three characters, so fuel = text length suffices). -/
def replaceAllF (matcher : List Char → Option Nat) : Nat → List Char → List Char
  | 0, cs => cs
  | _ + 1, [] => []
  | f + 1, c :: rest =>
    match matcher (c :: rest) with
    | some len => replaceAllF matcher f ((c :: rest).drop len)
    | none => c :: replaceAllF matcher f rest


def replaceAll (matcher : List Char → Option Nat) (cs : List Char) : List Char :=
  replaceAllF matcher cs.length cs


/-- The three wrapper-stripping replaces that produce `cleaned`. -/
def cleanResponse (s : String) : List Char :=
  replaceAll matchBracketTag
    (replaceAll (matchTagAt "tool_use".data)
      (replaceAll (matchTagAt "tool_call".data) s.data))


/-- Regex alternation over tool names at the current position (first listed
alternative wins; the listed names share no prefix, so this is exact). -/
def matchAlt : List String → List Char → Option (String × List Char)
  | [], _ => none
  | name :: names, cs =>
    match stripCIChars name.data cs with
    | some rest => some (name, rest)
    | none => matchAlt names cs


def singleArgTools : List String := ["read_file", "list_dir", "run_command", "report_error"]


def twoArgTools : List String := ["write_file", "append_file"]


/-- `/@(read_file|list_dir|run_command|report_error)\s*\(\s*([^)]+)\s*\)/i`
at the current position.  Greedy `\s*` before the capture plus the source's
`.trim()` collapse to trimming the whole parenthesised body.  Returns
`(tool, trimmed capture, match length)`. -/
def matchUnquotedAt (cs : List Char) : Option ((String × String) × Nat) :=
  match cs with
  | '@' :: r1 =>
    match matchAlt singleArgTools r1 with
    | none => none
    | some (tool, r2) =>
      let ws1 := (r2.takeWhile jsWs).length
      match r2.drop ws1 with
      | '(' :: r4 =>
        let inner := r4.takeWhile (· ≠ ')')
        match r4.drop inner.length with
        | ')' :: _ =>
          if inner = [] then none
          else some ((tool, jsTrim (String.mk inner)),
            1 + tool.length + ws1 + 1 + inner.length + 1)
        | _ => none
      | _ => none
  | _ => none


/-- The quoted-content scan `(?:[^q\\]|\\.)*` followed by the closing
quote: a backslash consumes the next character (which must not be a line
terminator, since `.` does not match those); a bare quote ends the
content.  Returns `(content, rest after the closing quote)`. -/
def scanQContent (q : Char) : List Char → Option (List Char × List Char)
  | [] => none
  | c :: cs =>
    if c = q then some ([], cs)
    else if c = '\\' then
      match cs with
      | [] => none
      | c2 :: cs2 =>
        if isLineTerm c2 then none
        else (scanQContent q cs2).map (fun p => (c :: c2 :: p.1, p.2))
    else (scanQContent q cs).map (fun p => (c :: p.1, p.2))


/-- `/@(tool)\s*\(\s*q...q\s*\)/i` for a quote character `q` (the
double- and single-quoted passes). -/
def matchQuotedAt (q : Char) (cs : List Char) : Option ((String × String) × Nat) :=
  match cs with
  | '@' :: r1 =>
    match matchAlt singleArgTools r1 with
    | none => none
    | some (tool, r2) =>
      let ws1 := (r2.takeWhile jsWs).length
      match r2.drop ws1 with
      | '(' :: r4 =>
        let ws2 := (r4.takeWhile jsWs).length
        match r4.drop ws2 with
        | q0 :: r5 =>
          if q0 = q then
            match scanQContent q r5 with
            | none => none
            | some (content, r6) =>
              let ws3 := (r6.takeWhile jsWs).length
              match r6.drop ws3 with
              | ')' :: _ => some ((tool, jsTrim (String.mk content)),
                  1 + tool.length + ws1 + 1 + ws2 + 1 + content.length + 1 + ws3 + 1)
              | _ => none
          else none
        | [] => none
      | _ => none
  | _ => none


/-- Split the parenthesised head at the first comma (the lazy `([^,]+?)\s*,`
group: the agent-name capture cannot cross a comma, so the first comma is
always the separator; the capture plus `.trim()` collapse to trimming the
pre-comma text, which must be non-empty). -/
def preComma : List Char → Option (List Char × List Char)
  | [] => none
  | c :: cs =>
    if c = ',' then some ([], cs)
    else (preComma cs).map (fun p => (c :: p.1, p.2))


/-- The lazy `([\s\S]*?)"""\s*\)` tail of the multi-line pattern: content
runs to the first position where `"""` followed by optional whitespace and
`)` matches.  Returns `(content, length consumed after the content)`. -/
def scanTripleQuoteEnd : List Char → Option (List Char × Nat)
  | [] => none
  | c :: cs =>
    if c = '"' then
      match cs with
      | '"' :: '"' :: r3 =>
        let wsn := (r3.takeWhile jsWs).length
        match r3.drop wsn with
        | ')' :: _ => some ([], 3 + wsn + 1)
        | _ => (scanTripleQuoteEnd cs).map (fun p => (c :: p.1, p.2))
      | _ => (scanTripleQuoteEnd cs).map (fun p => (c :: p.1, p.2))
    else (scanTripleQuoteEnd cs).map (fun p => (c :: p.1, p.2))


/-- `/@(write_file|append_file)\s*\(\s*([^,]+?)\s*,\s*"""([\s\S]*?)"""\s*\)/i`
at the current position: returns the ToolCall and the match length. -/
def matchMultiLineAt (cs : List Char) : Option (ToolCall × Nat) :=
  match cs with
  | '@' :: r1 =>
    match matchAlt twoArgTools r1 with
    | none => none
    | some (tool, r2) =>
      let ws1 := (r2.takeWhile jsWs).length
      match r2.drop ws1 with
      | '(' :: r4 =>
        match preComma r4 with
        | none => none
        | some (pre, r5) =>
          if (pre.dropWhile jsWs) = [] then none
          else
            let ws2 := (r5.takeWhile jsWs).length
            match r5.drop ws2 with
            | '"' :: '"' :: '"' :: r6 =>
              match scanTripleQuoteEnd r6 with
              | none => none
              | some (content, endLen) =>
                some (⟨tool, [jsTrim (String.mk pre), String.mk content]⟩,
                  1 + tool.length + ws1 + 1 + pre.length + 1 + ws2 + 3 +
                    content.length + endLen)
            | _ => none
      | _ => none
  | _ => none


/-- `/@search_files\s*\(\s*([^,]+?)\s*,\s*([^)]+)\s*\)/i` at the current
position. -/
def matchSearchAt (cs : List Char) : Option (ToolCall × Nat) :=
  match cs with
  | '@' :: r1 =>
    match stripCIChars "search_files".data r1 with
    | none => none
    | some r2 =>
      let ws1 := (r2.takeWhile jsWs).length
      match r2.drop ws1 with
      | '(' :: r4 =>
        match preComma r4 with
        | none => none
        | some (pre, r5) =>
          if (pre.dropWhile jsWs) = [] then none
          else
            let body := r5.takeWhile (· ≠ ')')
            match r5.drop body.length with
            | ')' :: _ =>
              if body = [] then none
              else some (⟨"search_files", [jsTrim (String.mk pre), jsTrim (String.mk body)]⟩,
                1 + 12 + ws1 + 1 + pre.length + 1 + body.length + 1)
            | _ => none
      | _ => none
  | _ => none


/-- The global regex scan over the cleaned text: at each position try the
matcher; on a match emit its value and resume after it, else advance one
position.  Every matcher used here matches at least one character, so fuel
= text length suffices. -/
def scanMatchesF {A : Type} (matcher : List Char → Option (A × Nat)) :
    Nat → List Char → List A
  | 0, _ => []
  | _ + 1, [] => []
  | f + 1, c :: rest =>
    match matcher (c :: rest) with
    | some (a, len) => a :: scanMatchesF matcher f ((c :: rest).drop len)
    | none => scanMatchesF matcher f rest


def scanMatches {A : Type} (matcher : List Char → Option (A × Nat))
    (cs : List Char) : List A :=
  scanMatchesF matcher cs.length cs


def multiLineCalls (cleaned : List Char) : List ToolCall :=
  scanMatches matchMultiLineAt cleaned


def searchCalls (cleaned : List Char) : List ToolCall :=
  scanMatches matchSearchAt cleaned


def quotedCalls (q : Char) (cleaned : List Char) : List ToolCall :=
  (scanMatches (matchQuotedAt q) cleaned).map (fun m => ⟨m.1, [m.2]⟩)


def unquotedMatches (cleaned : List Char) : List (String × String) :=
  scanMatches matchUnquotedAt cleaned


/-- The duplicate check of the unquoted pass: is there an already-collected
call with the same tool and first argument equal to the stripped or raw
argument? -/
def isDupCall (acc : List ToolCall) (tool stripped rawArg : String) : Bool :=
  acc.any (fun tc => tc.tool = tool &&
    (tc.args.getD 0 "" = stripped || tc.args.getD 0 "" = rawArg))


/-- The unquoted pass: push each match unless the duplicate check fires. -/
def unquotedLoop (acc : List ToolCall) : List (String × String) → List ToolCall
  | [] => acc
  | (tool, rawArg) :: ms =>
    let stripped := sanitizeArg rawArg
    if isDupCall acc tool stripped rawArg then unquotedLoop acc ms
    else unquotedLoop (acc ++ [⟨tool, [rawArg]⟩]) ms


/-- All calls collected before the unquoted pass runs. -/
def preUnquoted (response : String) (jsonCalls : List ToolCall) : List ToolCall :=
  let cleaned := cleanResponse response
  jsonCalls ++ multiLineCalls cleaned ++ searchCalls cleaned ++
    quotedCalls '"' cleaned ++ quotedCalls sq cleaned


/-- `parseToolCalls`: phase 1 (`<tool_call>` JSON blocks) is given as
`jsonCalls`; phase 2 strips wrapper tags and runs the five regex passes over
the cleaned text in source order. -/
def parseToolCalls (response : String) (jsonCalls : List ToolCall) : List ToolCall :=
  unquotedLoop (preUnquoted response jsonCalls) (unquotedMatches (cleanResponse response))



def shiftRange (d : Nat) (r : Nat × Nat) : Nat × Nat := (d + r.1, d + r.2)




/-! ## The agent data model and registry (agentManager.js)

Timestamps (ISO strings from `new Date()`) are modelled as an abstract clock
value `Sys.now`; `uuidv4` identifiers as a counter `Sys.nextId`; `saveAgent`
persistence is a no-op for the kernel state. -/

inductive AgentStatus
  | idle
  | busy
  | error
deriving DecidableEq, Repr


structure Metrics where
  totalMessages : Nat
  totalTokensIn : Nat
  totalTokensOut : Nat
  lastActiveAt : Option Nat
  errors : Nat
deriving DecidableEq, Repr


structure Todo where
  id : Nat
  text : String
  done : Bool
  createdAt : Nat
  completedAt : Option Nat
deriving DecidableEq, Repr


structure RagDoc where
  id : Nat
  name : String
  content : String
  addedAt : Nat
deriving DecidableEq, Repr


/-- A conversation-history entry.  `htype` is the optional provenance tag
(the source's `type` field: tool-result, delegation-result or
delegation-task); the structured `toolResults`/`delegationResults` payloads
duplicate data already carried by the continuation message and are not
modelled. -/
structure HistoryEntry where
  role : String
  content : String
  timestamp : Nat
  htype : Option String := none
  fromAgent : Option String := none
deriving DecidableEq, Repr


/-- An agent record.  `temperature` is a provider option the kernel never
computes with; it is modelled as an integer-valued stand-in. -/
structure AgentR where
  name : String
  role : String
  description : String
  provider : String
  model : String
  endpoint : String
  apiKey : String
  instructions : String
  status : AgentStatus
  temperature : Int
  maxTokens : Nat
  todoList : List Todo
  ragDocuments : List RagDoc
  conversationHistory : List HistoryEntry
  currentThinking : String
  metrics : Metrics
  handoffTargets : List String
  project : Option String
  isLeader : Bool
  template : Option String
  color : String
  icon : String
  createdAt : Nat
  updatedAt : Nat
deriving DecidableEq, Repr


/-- The payload of a registry `update(id, updates)` call: any field may be
present or absent.  The last four are runtime-state fields a caller may
name; `update` iterates only over its `allowed` whitelist and never reads
them. -/
structure UpdatePayload where
  name : Option String := none
  role : Option String := none
  description : Option String := none
  instructions : Option String := none
  temperature : Option Int := none
  maxTokens : Option Nat := none
  todoList : Option (List Todo) := none
  ragDocuments : Option (List RagDoc) := none
  handoffTargets : Option (List String) := none
  color : Option String := none
  icon : Option String := none
  provider : Option String := none
  model : Option String := none
  endpoint : Option String := none
  apiKey : Option String := none
  project : Option (Option String) := none
  isLeader : Option Bool := none
  status : Option AgentStatus := none
  currentThinking : Option String := none
  metrics : Option Metrics := none
  conversationHistory : Option (List HistoryEntry) := none
deriving Repr


/-- The field mutation of `update`: for each key in the `allowed` whitelist,
assign it when the payload defines it; then stamp `updatedAt`. -/
def updateAgent (agent : AgentR) (u : UpdatePayload) (now : Nat) : AgentR :=
  { agent with
    name := u.name.getD agent.name,
    role := u.role.getD agent.role,
    description := u.description.getD agent.description,
    instructions := u.instructions.getD agent.instructions,
    temperature := u.temperature.getD agent.temperature,
    maxTokens := u.maxTokens.getD agent.maxTokens,
    todoList := u.todoList.getD agent.todoList,
    ragDocuments := u.ragDocuments.getD agent.ragDocuments,
    handoffTargets := u.handoffTargets.getD agent.handoffTargets,
    color := u.color.getD agent.color,
    icon := u.icon.getD agent.icon,
    provider := u.provider.getD agent.provider,
    model := u.model.getD agent.model,
    endpoint := u.endpoint.getD agent.endpoint,
    apiKey := u.apiKey.getD agent.apiKey,
    project := u.project.getD agent.project,
    isLeader := u.isLeader.getD agent.isLeader,
    updatedAt := now }


/-! ## The conversation engine (sendMessage in agentManager.js)

The provider stream is an oracle script: each engine invocation consumes the
next `ProviderTurn` (its chunks, and the chunk index — if any — at which the
user's `stopAgent` call is observed by the per-chunk abort check).  The
shell oracle is a queue of `List ExecOut`, one entry per `executeTool`
call.  Delegations detected during streaming are enqueued on the target's
task queue and awaited after the stream; the model executes them at the
await point in detection order, a schedule the per-agent FIFO queues admit
(delegations enqueued by a turn that later aborts are not modelled — they
only affect target agents).  Prompt composition (system content, last 50
history entries, user message) is not consumed by the scripted oracle and
is omitted.  `Sys.trace` records `(agentId, depth)` of every invocation as
observation instrumentation. -/

def MAX_DELEGATION_DEPTH : Nat := 5


inductive Chunk
  | text (s : String)
  | usage (tin tout : Nat)
deriving DecidableEq, Repr


structure ProviderTurn where
  chunks : List Chunk
  abortAtChunk : Option Nat := none
deriving DecidableEq, Repr


inductive Ev
  | statusEv (id : Nat) (s : AgentStatus)
  | stopped (id : Nat) (name : String)
  | delegationEv (fromId toId : Nat) (task : String)
  | toolStart (id : Nat) (tool : String) (args : List String)
  | toolResultEv (id : Nat) (tool : String)
  | toolErrorEv (id : Nat) (tool : String) (error : String)
  | errorReport (id : Nat) (description : String)
  | updated (id : Nat)
deriving DecidableEq, Repr


structure Sys where
  agents : List (Nat × AgentR)
  fs : Fs
  script : List ProviderTurn
  execsQueue : List (List ExecOut)
  events : List Ev
  trace : List (Nat × Nat)
  nextId : Nat
  now : Nat
deriving Repr


def Sys.getAgent (st : Sys) (id : Nat) : Option AgentR :=
  (st.agents.find? (fun e => e.1 = id)).map (·.2)


def Sys.setAgent (st : Sys) (id : Nat) (a : AgentR) : Sys :=
  { st with agents := st.agents.map (fun e => if e.1 = id then (e.1, a) else e) }


def Sys.modifyAgent (st : Sys) (id : Nat) (f : AgentR → AgentR) : Sys :=
  match st.getAgent id with
  | none => st
  | some a => st.setAgent id (f a)


def Sys.emit (st : Sys) (e : Ev) : Sys := { st with events := st.events ++ [e] }


/-- `setStatus`: mutate the status and publish `agent:status`. -/
def setStatusE (st : Sys) (id : Nat) (s : AgentStatus) : Sys :=
  match st.getAgent id with
  | none => st
  | some a => (st.setAgent id { a with status := s }).emit (.statusEv id s)


/-- The state effects of `stopAgent(id)`: abort the in-flight request,
clear the thinking buffer, set status idle, publish `agent:stopped`. -/
def stopAgentEffects (st : Sys) (id : Nat) : Sys :=
  match st.getAgent id with
  | none => st
  | some a =>
    let st := st.setAgent id { a with currentThinking := "" }
    let st := setStatusE st id .idle
    st.emit (.stopped id a.name)


/-- `addTodo`: append a todo with a fresh id, persist, publish
`agent:updated`. -/
def addTodoE (st : Sys) (id : Nat) (text : String) : Sys × Option Todo :=
  match st.getAgent id with
  | none => (st, none)
  | some a =>
    let todo : Todo := ⟨st.nextId, text, false, st.now, none⟩
    let st := st.setAgent id { a with todoList := a.todoList ++ [todo] }
    let st := { st with nextId := st.nextId + 1 }
    ((st.emit (.updated id)), some todo)


/-- Mark a delegation todo done with a completion timestamp. -/
def markTodoDone (st : Sys) (id todoId : Nat) : Sys :=
  match st.getAgent id with
  | none => st
  | some a =>
    if (a.todoList.find? (fun t => t.id = todoId)).isSome then
      let st := st.setAgent id { a with todoList := a.todoList.map (fun t =>
        if t.id = todoId then { t with done := true, completedAt := some st.now } else t) }
      st.emit (.updated id)
    else st


def Sys.nextTurn (st : Sys) : ProviderTurn × Sys :=
  match st.script with
  | [] => (⟨[], none⟩, st)
  | t :: rest => (t, { st with script := rest })


def Sys.nextExecs (st : Sys) : List ExecOut × Sys :=
  match st.execsQueue with
  | [] => ([], st)
  | e :: rest => (e, { st with execsQueue := rest })


inductive EngineErr
  | agentNotFound
  | stoppedByUser
deriving DecidableEq, Repr


def errMessage : EngineErr → String
  | .agentNotFound => "Agent not found"
  | .stoppedByUser => "Agent stopped by user"


/-- The catch block of `sendMessage`: drop the abort controller, bump the
error counter, clear the thinking buffer, set status idle for a user stop
and error otherwise, persist, and re-raise. -/
def catchEffects (st : Sys) (id : Nat) (e : EngineErr) : Sys :=
  match st.getAgent id with
  | none => st
  | some a =>
    let st := st.setAgent id { a with
      metrics := { a.metrics with errors := a.metrics.errors + 1 },
      currentThinking := "" }
    setStatusE st id (if errMessage e = "Agent stopped by user" then .idle else .error)


structure StreamAcc where
  full : String
  tin : Nat
  tout : Nat
deriving DecidableEq, Repr


/-- The streaming loop: per chunk, first check the abort signal (raising
"stopped by user"), then accumulate text into the response buffer or token
usage from the final `usage` chunk. -/
def runStreamF : List Chunk → Nat → Option Nat → StreamAcc → Except StreamAcc StreamAcc
  | [], _, _, acc => .ok acc
  | c :: cs, i, ab, acc =>
    if ab = some i then .error acc
    else
      let acc := match c with
        | .text s => { acc with full := acc.full ++ s }
        | .usage tin tout => { acc with tin := acc.tin + tin, tout := acc.tout + tout }
      runStreamF cs (i + 1) ab acc


/-- The incremental delegation detection over the growing response prefix:
after each text chunk, delegations parsed beyond `detectedCount` are
dispatched and the count is advanced.  Returns (dispatched so far, final
response, final count). -/
def detectSchedule : List Chunk → String → Nat → (List Delegation × String × Nat)
  | [], full, count => ([], full, count)
  | .text s :: cs, full, count =>
    let full := full ++ s
    let parsed := parseDelegations full
    let newly := parsed.drop count
    let count := max count parsed.length
    let (ds, f2, c2) := detectSchedule cs full count
    (newly ++ ds, f2, c2)
  | .usage _ _ :: cs, full, count => detectSchedule cs full count


/-- All delegations a completed leader stream dispatches: the incremental
ones plus the final pass over the full response. -/
def dispatchedOf (chunks : List Chunk) : List Delegation :=
  let (ds, full, count) := detectSchedule chunks "" 0
  ds ++ (parseDelegations full).drop count


structure ExecutedTool where
  tool : String
  args : List String
  res : ToolResult
deriving DecidableEq, Repr


/-- The tool-execution loop of `_processToolCalls` for an agent with a
project: `report_error` is handled without touching the dispatcher, any
other call is forwarded to `executeTool` with tool events published. -/
def runToolCalls : Sys → Nat → String → List ToolCall → Sys × List ExecutedTool
  | st, _, _, [] => (st, [])
  | st, id, project, call :: rest =>
    if call.tool = "report_error" then
      let desc := orUnknown (call.args.getD 0 "")
      let st := st.emit (.errorReport id desc)
      let r : ExecutedTool := ⟨"report_error", call.args,
        { success := true, result := some ("Error reported: " ++ desc), isErrorReport := true }⟩
      let (st, rs) := runToolCalls st id project rest
      (st, r :: rs)
    else
      let st := st.emit (.toolStart id call.tool call.args)
      let (es, st) := st.nextExecs
      let (tr, fs2) := executeTool call.tool call.args project st.fs es
      let st := { st with fs := fs2 }
      let st := if tr.success then st.emit (.toolResultEv id call.tool)
        else st.emit (.toolErrorEv id call.tool (tr.error.getD "Unknown error"))
      let (st, rs) := runToolCalls st id project rest
      (st, ⟨call.tool, call.args, tr⟩ :: rs)


def toolResultsSummary (rs : List ExecutedTool) : String :=
  String.intercalate "\n\n" (rs.map (fun r =>
    if r.res.isErrorReport then
      "--- ⚠️ ERROR REPORT ---\n" ++
        (if r.args.getD 0 "" ≠ "" then r.args.getD 0 "" else r.res.result.getD "")
    else
      "--- " ++ r.tool ++ "(" ++ String.intercalate ", " r.args ++ ") ---\n" ++
        (if r.res.success then r.res.result.getD "" else "ERROR: " ++ r.res.error.getD "")))


def continuationPromptFor (rs : List ExecutedTool) : String :=
  if rs.any (·.res.isErrorReport) then
    "You reported an error. The error has been escalated to the manager. Summarize what you attempted and what went wrong so the manager can help."
  else if rs.any (fun r => !r.res.success && !r.res.isErrorReport) then
    "Some tools encountered errors. Try to resolve the issues, use alternative approaches, or use @report_error(description) to escalate the problem to the manager if you cannot resolve it."
  else
    "Continue with your task based on these results. Use more tools if needed, or provide your final response."


structure DelegationResult where
  agentId : Option Nat
  agentName : String
  task : String
  response : Option String
  error : Option String
deriving DecidableEq, Repr


def strLower (s : String) : String := String.mk (s.data.map Char.toLower)


def delegationSummary (rs : List DelegationResult) : String :=
  String.intercalate "\n\n" (rs.map (fun r =>
    (if r.error.isSome then "--- ⚠️ ERROR from " ++ r.agentName ++ " ---"
     else "--- Response from " ++ r.agentName ++ " ---") ++ "\n" ++
    (match r.response with
     | some resp => resp
     | none => r.error.getD "")))


def synthesisHintFor (rs : List DelegationResult) : String :=
  if rs.any (·.error.isSome) then
    "Some agents reported errors. Decide whether to retry, reassign, or adapt your plan accordingly."
  else
    "Please synthesize these results and continue with your plan. If more delegations are needed, use @delegate() commands. If the task is complete, provide the final response."


mutual


/-- `sendMessage(id, userMessage, streamCallback, delegationDepth,
messageMeta)`.  Returns the turn's response (or the raised failure) and the
final system state.  `meta` is the optional `(type, fromAgent)` provenance
pair of the engine-constructed user message. -/
def sendMessage (st : Sys) (id : Nat) (userMessage : String) (depth : Nat)
    (meta : Option (String × Option String)) : (Except EngineErr String) × Sys :=
  match st.getAgent id with
  | none => (.error .agentNotFound, st)
  | some agent =>
    let st := { st with trace := st.trace ++ [(id, depth)] }
    let st := setStatusE st id .busy
    let st := st.modifyAgent id (fun a => { a with currentThinking := "" })
    let entry : HistoryEntry :=
      { role := "user"
        content := userMessage
        timestamp := st.now
        htype := meta.map (·.1)
        fromAgent := meta.bind (·.2) }
    let st := st.modifyAgent id (fun a =>
      { a with conversationHistory := a.conversationHistory ++ [entry] })
    let (turn, st) := st.nextTurn
    match runStreamF turn.chunks 0 turn.abortAtChunk ⟨"", 0, 0⟩ with
    | .error _ =>
      -- the abort check observed the user's stop; stopAgent already ran
      let st := stopAgentEffects st id
      (.error .stoppedByUser, catchEffects st id .stoppedByUser)
    | .ok acc =>
      let full := acc.full
      let st := st.modifyAgent id (fun a =>
        { a with
          metrics :=
            { a.metrics with
              totalTokensIn := a.metrics.totalTokensIn + acc.tin
              totalTokensOut := a.metrics.totalTokensOut + acc.tout } })
      -- store the assistant message, bump totalMessages, stamp lastActiveAt
      let st := st.modifyAgent id (fun a =>
        { a with
          conversationHistory := a.conversationHistory ++
            [{ role := "assistant", content := full, timestamp := st.now }]
          metrics :=
            { a.metrics with
              totalMessages := a.metrics.totalMessages + 1
              lastActiveAt := some st.now }
          currentThinking := "" })
      if _hproj : agent.project.isSome ∧ depth < MAX_DELEGATION_DEPTH then
        let toolCalls := parseToolCalls full []
        let (st, results) :=
          if toolCalls = [] then (st, [])
          else runToolCalls st id (agent.project.getD "") toolCalls
        if results ≠ [] then
          match sendMessage st id
              ("[TOOL RESULTS]\n" ++ toolResultsSummary results ++ "\n\n" ++
                continuationPromptFor results)
              (depth + 1) (some ("tool-result", none)) with
          | (.ok resp, st) => (.ok resp, setStatusE st id .idle)
          | (.error e, st) => (.error e, catchEffects st id e)
        else
          sendTail st id agent full turn.chunks depth
      else
        sendTail st id agent full turn.chunks depth
termination_by (MAX_DELEGATION_DEPTH - depth, 2, 0)
decreasing_by
  all_goals simp_wf
  all_goals first
    | (apply Prod.Lex.left; omega)
    | (apply Prod.Lex.right; first
        | (apply Prod.Lex.left; omega)
        | (apply Prod.Lex.right; omega))


/-- The tail of a turn after (possibly empty) tool processing: for a leader
below the depth limit, finalise the dispatched delegations, await them,
feed the `[DELEGATION RESULTS]` continuation back at depth+1; otherwise
finish idle with the assistant text. -/
def sendTail (st : Sys) (id : Nat) (agent : AgentR) (full : String)
    (chunks : List Chunk) (depth : Nat) : (Except EngineErr String) × Sys :=
  if hL : agent.isLeader = true ∧ depth < MAX_DELEGATION_DEPTH then
    let dispatched := dispatchedOf chunks
    if dispatched.length > 0 then
      let (st, results) := runDelegations st id agent.name dispatched depth hL.2
      match sendMessage st id
          ("[DELEGATION RESULTS]\n" ++ delegationSummary results ++ "\n\n" ++
            synthesisHintFor results)
          (depth + 1) (some ("delegation-result", none)) with
      | (.ok resp, st) => (.ok resp, setStatusE st id .idle)
      | (.error e, st) => (.error e, catchEffects st id e)
    else
      (.ok full, setStatusE st id .idle)
  else
    (.ok full, setStatusE st id .idle)
termination_by (MAX_DELEGATION_DEPTH - depth, 1, 0)
decreasing_by
  all_goals simp_wf
  all_goals first
    | (apply Prod.Lex.left; omega)
    | (apply Prod.Lex.right; first
        | (apply Prod.Lex.left; omega)
        | (apply Prod.Lex.right; omega))


def runDelegations (st : Sys) (leaderId : Nat) (leaderName : String)
    (ds : List Delegation) (depth : Nat) (h : depth < MAX_DELEGATION_DEPTH) :
    Sys × List DelegationResult :=
  match ds with
  | [] => (st, [])
  | d :: rest =>
    match st.agents.find? (fun e =>
        strLower e.2.name = strLower d.agentName && e.1 ≠ leaderId) with
    | none =>
      let r : DelegationResult := ⟨none, d.agentName, d.task, none,
        some ("Agent \"" ++ d.agentName ++ "\" not found in swarm")⟩
      let (st, rs) := runDelegations st leaderId leaderName rest depth h
      (st, r :: rs)
    | some (tid, tagent) =>
      let st := st.emit (.delegationEv leaderId tid d.task)
      let (st, todoq) := addTodoE st tid ("[From " ++ leaderName ++ "] " ++ d.task)
      match sendMessage st tid ("[TASK from " ++ leaderName ++ "]: " ++ d.task)
          (depth + 1) (some ("delegation-task", some leaderName)) with
      | (.ok resp, st) =>
        let st := match todoq with
          | some t => markTodoDone st tid t.id
          | none => st
        let r : DelegationResult := ⟨some tid, tagent.name, d.task, some resp, none⟩
        let (st, rs) := runDelegations st leaderId leaderName rest depth h
        (st, r :: rs)
      | (.error e, st) =>
        -- the .catch attached to the queued promise turns the failure
        -- into a result object
        let r : DelegationResult := ⟨some tid, tagent.name, d.task, none,
          some (errMessage e)⟩
        let (st, rs) := runDelegations st leaderId leaderName rest depth h
        (st, r :: rs)
termination_by (MAX_DELEGATION_DEPTH - depth, 0, ds.length)
decreasing_by
  all_goals simp_wf
  all_goals first
    | (apply Prod.Lex.left; omega)
    | (apply Prod.Lex.right; first
        | (apply Prod.Lex.left; omega)
        | (apply Prod.Lex.right; omega))

end





/-! ## A fuelled, structurally recursive mirror of the engine

The mutual engine above is defined by well-founded recursion on the
delegation depth and so does not reduce inside the kernel.  The mirror
below is the same computation driven by explicit fuel (one unit per
recursive engine invocation); `engineF_eq` proves the two agree whenever
the fuel exceeds the remaining depth budget, which lets concrete runs be
evaluated by `rfl`/`decide`. -/

def runDelegationsF (send : Sys → Nat → String → Nat →
      Option (String × Option String) → (Except EngineErr String) × Sys)
    (lid : Nat) (lname : String) (depth : Nat) :
    Sys → List Delegation → Sys × List DelegationResult
  | st, [] => (st, [])
  | st, d :: rest =>
    match st.agents.find? (fun e =>
        strLower e.2.name = strLower d.agentName && e.1 ≠ lid) with
    | none =>
      let r : DelegationResult := ⟨none, d.agentName, d.task, none,
        some ("Agent \"" ++ d.agentName ++ "\" not found in swarm")⟩
      let (st, rs) := runDelegationsF send lid lname depth st rest
      (st, r :: rs)
    | some (tid, tagent) =>
      let st := st.emit (.delegationEv lid tid d.task)
      let (st, todoq) := addTodoE st tid ("[From " ++ lname ++ "] " ++ d.task)
      match send st tid ("[TASK from " ++ lname ++ "]: " ++ d.task)
          (depth + 1) (some ("delegation-task", some lname)) with
      | (.ok resp, st) =>
        let st := match todoq with
          | some t => markTodoDone st tid t.id
          | none => st
        let r : DelegationResult := ⟨some tid, tagent.name, d.task, some resp, none⟩
        let (st, rs) := runDelegationsF send lid lname depth st rest
        (st, r :: rs)
      | (.error e, st) =>
        let r : DelegationResult := ⟨some tid, tagent.name, d.task, none,
          some (errMessage e)⟩
        let (st, rs) := runDelegationsF send lid lname depth st rest
        (st, r :: rs)


def sendTailF (send : Sys → Nat → String → Nat →
      Option (String × Option String) → (Except EngineErr String) × Sys)
    (st : Sys) (id : Nat) (agent : AgentR) (full : String)
    (chunks : List Chunk) (depth : Nat) : (Except EngineErr String) × Sys :=
  if agent.isLeader = true ∧ depth < MAX_DELEGATION_DEPTH then
    let dispatched := dispatchedOf chunks
    if dispatched.length > 0 then
      let (st, results) := runDelegationsF send id agent.name depth st dispatched
      match send st id
          ("[DELEGATION RESULTS]\n" ++ delegationSummary results ++ "\n\n" ++
            synthesisHintFor results)
          (depth + 1) (some ("delegation-result", none)) with
      | (.ok resp, st) => (.ok resp, setStatusE st id .idle)
      | (.error e, st) => (.error e, catchEffects st id e)
    else
      (.ok full, setStatusE st id .idle)
  else
    (.ok full, setStatusE st id .idle)


def sendMessageF : Nat → Sys → Nat → String → Nat →
    Option (String × Option String) → (Except EngineErr String) × Sys
  | 0, st, _, _, _, _ => (.error .agentNotFound, st)
  | gas + 1, st, id, userMessage, depth, meta =>
    match st.getAgent id with
    | none => (.error .agentNotFound, st)
    | some agent =>
      let st := { st with trace := st.trace ++ [(id, depth)] }
      let st := setStatusE st id .busy
      let st := st.modifyAgent id (fun a => { a with currentThinking := "" })
      let entry : HistoryEntry :=
        { role := "user"
          content := userMessage
          timestamp := st.now
          htype := meta.map (·.1)
          fromAgent := meta.bind (·.2) }
      let st := st.modifyAgent id (fun a =>
        { a with conversationHistory := a.conversationHistory ++ [entry] })
      let (turn, st) := st.nextTurn
      match runStreamF turn.chunks 0 turn.abortAtChunk ⟨"", 0, 0⟩ with
      | .error _ =>
        let st := stopAgentEffects st id
        (.error .stoppedByUser, catchEffects st id .stoppedByUser)
      | .ok acc =>
        let full := acc.full
        let st := st.modifyAgent id (fun a =>
          { a with
            metrics :=
              { a.metrics with
                totalTokensIn := a.metrics.totalTokensIn + acc.tin
                totalTokensOut := a.metrics.totalTokensOut + acc.tout } })
        let st := st.modifyAgent id (fun a =>
          { a with
            conversationHistory := a.conversationHistory ++
              [{ role := "assistant", content := full, timestamp := st.now }]
            metrics :=
              { a.metrics with
                totalMessages := a.metrics.totalMessages + 1
                lastActiveAt := some st.now }
            currentThinking := "" })
        if agent.project.isSome ∧ depth < MAX_DELEGATION_DEPTH then
          let toolCalls := parseToolCalls full []
          let (st, results) :=
            if toolCalls = [] then (st, [])
            else runToolCalls st id (agent.project.getD "") toolCalls
          if results ≠ [] then
            match sendMessageF gas st id
                ("[TOOL RESULTS]\n" ++ toolResultsSummary results ++ "\n\n" ++
                  continuationPromptFor results)
                (depth + 1) (some ("tool-result", none)) with
            | (.ok resp, st) => (.ok resp, setStatusE st id .idle)
            | (.error e, st) => (.error e, catchEffects st id e)
          else
            sendTailF (sendMessageF gas) st id agent full turn.chunks depth
        else
          sendTailF (sendMessageF gas) st id agent full turn.chunks depth


/-! ## Concrete fixtures for evaluating the engine -/

def mkAgentC (name role : String) (project : Option String) (isLeader : Bool) : AgentR :=
  { name := name
    role := role
    description := ""
    provider := "ollama"
    model := "m"
    endpoint := ""
    apiKey := ""
    instructions := ""
    status := .idle
    temperature := 0
    maxTokens := 100
    todoList := []
    ragDocuments := []
    conversationHistory := []
    currentThinking := ""
    metrics :=
      { totalMessages := 0
        totalTokensIn := 0
        totalTokensOut := 0
        lastActiveAt := none
        errors := 0 }
    handoffTargets := []
    project := project
    isLeader := isLeader
    template := none
    color := "c"
    icon := "i"
    createdAt := 0
    updatedAt := 0 }


def devAgentC : AgentR := mkAgentC "Dev" "worker" (some "p") false


/-- A system whose single scripted provider turn is aborted after two
chunks: the user cancels mid-stream. -/
def stAbortC : Sys :=
  { agents := [(0, devAgentC)]
    fs := { files := [], dirs := [] }
    script := [{ chunks := [.text "a", .text "b", .text "c"], abortAtChunk := some 2 }]
    execsQueue := []
    events := []
    trace := []
    nextId := 1
    now := 10 }


/-- A system whose first scripted turn answers with a tool call and whose
second turn answers plainly: one logical user turn that performs exactly
one tool-result continuation. -/
def stToolC : Sys :=
  { agents := [(0, devAgentC)]
    fs := { files := [("/projects/p/a.txt", "hello")], dirs := ["/projects/p"] }
    script := [{ chunks := [.text "@read_file(a.txt)", .usage 5 7] },
               { chunks := [.text "done!", .usage 2 3] }]
    execsQueue := []
    events := []
    trace := []
    nextId := 1
    now := 10 }


/-! ## The message-count and depth invariants

`tmOf`/`acOf` observe an agent's `totalMessages` counter and the number of
assistant entries in its history; `Qinv` says the two counters moved in
lock-step between two states, and that any new trace entry (an engine
invocation) stays within the delegation-depth limit. -/

def acA (a : AgentR) : Nat :=
  (a.conversationHistory.filter (fun e => e.role = "assistant")).length


def tmOf (st : Sys) (aid : Nat) : Nat :=
  match st.getAgent aid with
  | some a => a.metrics.totalMessages
  | none => 0


def acOf (st : Sys) (aid : Nat) : Nat :=
  match st.getAgent aid with
  | some a => acA a
  | none => 0


def MInv (st st2 : Sys) : Prop :=
  ∀ aid, tmOf st2 aid + acOf st aid = tmOf st aid + acOf st2 aid


def TraceLe (st st2 : Sys) : Prop :=
  ∀ e, e ∈ st2.trace → e ∈ st.trace ∨ e.2 ≤ MAX_DELEGATION_DEPTH


def Qinv (st st2 : Sys) (d : Nat) : Prop :=
  MInv st st2 ∧ (d ≤ MAX_DELEGATION_DEPTH → TraceLe st st2)


def depthsLe (tr : List (Nat × Nat)) : Bool :=
  tr.all (fun e => e.2 ≤ MAX_DELEGATION_DEPTH)



/-! ## Lemmas about the unquoted-pass duplicate check -/

/-- Proof-side unfolding of `unquotedLoop`: the calls it appends. -/
def loopExt (acc : List ToolCall) : List (String × String) → List ToolCall
  | [] => []
  | (tool, rawArg) :: ms =>
    let stripped := sanitizeArg rawArg
    if isDupCall acc tool stripped rawArg then loopExt acc ms
    else ⟨tool, [rawArg]⟩ :: loopExt (acc ++ [⟨tool, [rawArg]⟩]) ms

/-! # Theorems -/



theorem Fs.read_mkdirRec (fs : Fs) (d p : String) : (fs.mkdirRec d).read p = fs.read p := by
  unfold Fs.mkdirRec
  split <;> rfl


theorem Fs.read_write_self (fs : Fs) (p c : String) : (fs.write p c).read p = some c := by
  simp [Fs.read, Fs.write]


/-! ## Lemmas about the delegation parser -/

theorem stripCIChars_some {ps cs rest : List Char} (h : stripCIChars ps cs = some rest) :
    rest = cs.drop ps.length ∧ ps.length ≤ cs.length := by
  induction ps generalizing cs with
  | nil =>
    simp only [stripCIChars, Option.some.injEq] at h
    subst h
    exact ⟨(List.drop_zero cs).symm, Nat.zero_le _⟩
  | cons p ps ih =>
    cases cs with
    | nil => simp [stripCIChars] at h
    | cons c cs =>
      by_cases hpc : p.toLower = c.toLower
      · simp only [stripCIChars, hpc, if_pos rfl] at h
        obtain ⟨h1, h2⟩ := ih h
        exact ⟨h1, by simpa using Nat.succ_le_succ h2⟩
      · simp [stripCIChars, hpc] at h


theorem matchDelegateHead_pos {cs : List Char} {len : Nat}
    (h : matchDelegateHead cs = some len) : 1 ≤ len := by
  unfold matchDelegateHead at h
  rcases hs : stripCIChars "@delegate".data cs with _ | rest <;> rw [hs] at h
  · exact absurd h (by simp)
  · rcases hd : rest.drop (rest.takeWhile jsWs).length with _ | ⟨c, cs2⟩ <;>
      simp only [hd] at h
    · exact absurd h (by simp)
    · by_cases hc : c = '(' <;> simp [hc] at h
      omega


theorem tryMatchAt_pos {cs : List Char} {len : Nat} (h : tryMatchAt cs = some len) :
    1 ≤ len := by
  unfold tryMatchAt at h
  have hinl : ∀ {l : Nat}, inlineLen cs = some l → 1 ≤ l := by
    intro l hl
    cases cs with
    | nil => simp [inlineLen] at hl
    | cons c cs =>
      unfold inlineLen at hl
      by_cases hc : c = bq
      · rcases hk : closeIdx cs with _ | k <;> simp [hc, hk] at hl; omega
      · simp [hc] at hl
  by_cases hst : startsTriple cs
  · rw [if_pos hst] at h
    rcases hk : findTripleIdx (cs.drop 3) with _ | k <;> rw [hk] at h
    · exact hinl h
    · simp at h; omega
  · rw [if_neg hst] at h
    exact hinl h


theorem scanDelegationsF_nil (f : Nat) (R : List (Nat × Nat)) (i : Nat) :
    scanDelegationsF f R [] i = [] := by
  cases f <;> rfl


theorem scanBlocksF_nil (f i : Nat) : scanBlocksF f [] i = [] := by
  cases f <;> rfl


/-- Explicit one-step equation for `scanDelegationsF` (definitional). -/
theorem scanDelegationsF_step (f : Nat) (R : List (Nat × Nat)) (c : Char)
    (rest : List Char) (i : Nat) :
    scanDelegationsF (f + 1) R (c :: rest) i =
      match matchDelegateHead (c :: rest) with
      | some len =>
        let tail := scanDelegationsF f R ((c :: rest).drop len) (i + len)
        if insideRanges R i then tail
        else
          match parseBody ((c :: rest).drop len) with
          | some d => d :: tail
          | none => tail
      | none => scanDelegationsF f R rest (i + 1) := rfl


/-- Explicit one-step equation for `scanBlocksF` (definitional). -/
theorem scanBlocksF_step (f : Nat) (c : Char) (rest : List Char) (i : Nat) :
    scanBlocksF (f + 1) (c :: rest) i =
      match tryMatchAt (c :: rest) with
      | some len => (i, i + len) :: scanBlocksF f ((c :: rest).drop len) (i + len)
      | none => scanBlocksF f rest (i + 1) := rfl


theorem scanDelegationsF_fuel_eq :
    ∀ (f g : Nat) (R : List (Nat × Nat)) (cs : List Char) (i : Nat),
    cs.length ≤ f → cs.length ≤ g →
    scanDelegationsF f R cs i = scanDelegationsF g R cs i := by
  intro f
  induction f with
  | zero =>
    intro g R cs i hf _
    have : cs = [] := List.eq_nil_of_length_eq_zero (Nat.le_zero.mp hf)
    subst this
    rw [scanDelegationsF_nil, scanDelegationsF_nil]
  | succ f ih =>
    intro g R cs i hf hg
    cases cs with
    | nil => rw [scanDelegationsF_nil, scanDelegationsF_nil]
    | cons c rest =>
      cases g with
      | zero => simp at hg
      | succ g =>
        show scanDelegationsF (f + 1) R (c :: rest) i = scanDelegationsF (g + 1) R (c :: rest) i
        unfold scanDelegationsF
        rcases hm : matchDelegateHead (c :: rest) with _ | len
        · simp only [hm]
          exact ih g R rest (i + 1) (by simpa using Nat.le_of_succ_le_succ hf)
            (by simpa using Nat.le_of_succ_le_succ hg)
        · have hlen := matchDelegateHead_pos hm
          have hd : ((c :: rest).drop len).length ≤ f := by
            simp only [List.length_drop, List.length_cons]
            simp only [List.length_cons] at hf
            omega
          have hd2 : ((c :: rest).drop len).length ≤ g := by
            simp only [List.length_drop, List.length_cons]
            simp only [List.length_cons] at hg
            omega
          simp only [hm]
          rw [ih g R ((c :: rest).drop len) (i + len) hd hd2]


theorem scanBlocksF_fuel_eq :
    ∀ (f g : Nat) (cs : List Char) (i : Nat),
    cs.length ≤ f → cs.length ≤ g →
    scanBlocksF f cs i = scanBlocksF g cs i := by
  intro f
  induction f with
  | zero =>
    intro g cs i hf _
    have : cs = [] := List.eq_nil_of_length_eq_zero (Nat.le_zero.mp hf)
    subst this
    rw [scanBlocksF_nil, scanBlocksF_nil]
  | succ f ih =>
    intro g cs i hf hg
    cases cs with
    | nil => rw [scanBlocksF_nil, scanBlocksF_nil]
    | cons c rest =>
      cases g with
      | zero => simp at hg
      | succ g =>
        show scanBlocksF (f + 1) (c :: rest) i = scanBlocksF (g + 1) (c :: rest) i
        unfold scanBlocksF
        rcases hm : tryMatchAt (c :: rest) with _ | len
        · simp only [hm]
          exact ih g rest (i + 1) (by simpa using Nat.le_of_succ_le_succ hf)
            (by simpa using Nat.le_of_succ_le_succ hg)
        · have hlen := tryMatchAt_pos hm
          have hd : ((c :: rest).drop len).length ≤ f := by
            simp only [List.length_drop, List.length_cons]
            simp only [List.length_cons] at hf
            omega
          have hd2 : ((c :: rest).drop len).length ≤ g := by
            simp only [List.length_drop, List.length_cons]
            simp only [List.length_cons] at hg
            omega
          simp only [hm]
          rw [ih g ((c :: rest).drop len) (i + len) hd hd2]


theorem insideRanges_shift (R : List (Nat × Nat)) (d i : Nat) :
    insideRanges (R.map (shiftRange d)) (d + i) = insideRanges R i := by
  induction R with
  | nil => rfl
  | cons r rs ih =>
    simp only [insideRanges, List.map_cons, List.any_cons] at ih ⊢
    rw [ih]
    congr 1
    simp [shiftRange]


theorem scanDelegationsF_shift :
    ∀ (f : Nat) (R : List (Nat × Nat)) (cs : List Char) (i d : Nat),
    scanDelegationsF f (R.map (shiftRange d)) cs (d + i) = scanDelegationsF f R cs i := by
  intro f
  induction f with
  | zero => intro R cs i d; rfl
  | succ f ih =>
    intro R cs i d
    cases cs with
    | nil => rfl
    | cons c rest =>
      show scanDelegationsF (f + 1) _ (c :: rest) _ = scanDelegationsF (f + 1) R (c :: rest) i
      unfold scanDelegationsF
      rcases hm : matchDelegateHead (c :: rest) with _ | len
      · simp only [hm]
        have := ih R rest (i + 1) d
        rw [show d + i + 1 = d + (i + 1) by omega]
        exact this
      · simp only [hm, insideRanges_shift]
        have := ih R ((c :: rest).drop len) (i + len) d
        rw [show d + i + len = d + (i + len) by omega]
        rw [this]


theorem scanDelegationsF_drop_head :
    ∀ (f : Nat) (e : Nat) (R : List (Nat × Nat)) (cs : List Char) (i : Nat), e ≤ i →
    scanDelegationsF f ((0, e) :: R) cs i = scanDelegationsF f R cs i := by
  intro f
  induction f with
  | zero => intro e R cs i _; rfl
  | succ f ih =>
    intro e R cs i he
    cases cs with
    | nil => rfl
    | cons c rest =>
      show scanDelegationsF (f + 1) _ (c :: rest) i = scanDelegationsF (f + 1) R (c :: rest) i
      unfold scanDelegationsF
      rcases hm : matchDelegateHead (c :: rest) with _ | len
      · simp only [hm]
        exact ih e R rest (i + 1) (by omega)
      · have hin : insideRanges ((0, e) :: R) i = insideRanges R i := by
          simp [insideRanges]
          omega
        simp only [hm, hin]
        rw [ih e R ((c :: rest).drop len) (i + len) (by omega)]


theorem matchDelegateHead_bq (cs : List Char) : matchDelegateHead (bq :: cs) = none := by
  unfold matchDelegateHead
  have hnone : stripCIChars "@delegate".data (bq :: cs) = none := by
    show (if '@'.toLower = bq.toLower then stripCIChars "delegate".data cs else none) = none
    rw [if_neg (by decide)]
  rw [hnone]


theorem scanDelegationsF_bq_step (f : Nat) (R : List (Nat × Nat)) (cs : List Char) (i : Nat)
    (hf : cs.length + 1 ≤ f) :
    scanDelegationsF f R (bq :: cs) i = scanDelegationsF cs.length R cs (i + 1) := by
  cases f with
  | zero => omega
  | succ f =>
    rw [scanDelegationsF_step, matchDelegateHead_bq]
    exact scanDelegationsF_fuel_eq f cs.length R cs (i + 1) (by omega) (le_refl _)


theorem stripCIChars_no_bq :
    ∀ (ps cs rest : List Char), (∀ p ∈ ps, p.toLower ≠ bq) →
    stripCIChars ps cs = some rest → (cs.take ps.length).contains bq = false := by
  intro ps
  induction ps with
  | nil => intro cs rest _ _; simp
  | cons p ps ih =>
    intro cs rest hp h
    cases cs with
    | nil => simp [stripCIChars] at h
    | cons c cs =>
      by_cases hpc : p.toLower = c.toLower
      · have hc : c ≠ bq := by
          intro hc
          subst hc
          exact hp p (by simp) (by rw [hpc]; decide)
        simp only [stripCIChars, hpc, if_pos rfl] at h
        have := ih cs rest (fun x hx => hp x (by simp [hx])) h
        simp only [List.length_cons, List.take_succ_cons, List.contains_cons]
        simp only [this]
        simp [hc, bne_iff_ne]
        intro hcc
        exact absurd hcc.symm hc
      · simp [stripCIChars, hpc] at h


theorem takeWhile_no_bq (l : List Char) : ((l.takeWhile jsWs).contains bq) = false := by
  rw [Bool.eq_false_iff]
  intro hmem
  have := List.mem_takeWhile_imp (List.elem_iff.mp hmem)
  revert this
  decide


theorem take_len_takeWhile (p : Char → Bool) (l : List Char) :
    l.take (l.takeWhile p).length = l.takeWhile p := by
  induction l with
  | nil => rfl
  | cons c cs ih =>
    by_cases hpc : p c
    · simp [List.takeWhile_cons, hpc, ih]
    · simp [List.takeWhile_cons, hpc]


theorem matchDelegateHead_no_bq {cs : List Char} {len : Nat}
    (h : matchDelegateHead cs = some len) : (cs.take len).contains bq = false := by
  unfold matchDelegateHead at h
  rcases hs : stripCIChars "@delegate".data cs with _ | rest <;> rw [hs] at h
  · simp at h
  · rcases hd : rest.drop (rest.takeWhile jsWs).length with _ | ⟨c, cs2⟩ <;>
      simp only [hd] at h
    · simp at h
    · by_cases hc : c = '(' <;> simp [hc] at h
      subst hc
      obtain ⟨hrest, hlen9⟩ := stripCIChars_some hs
      have h9 : ("@delegate".data).length = 9 := by decide
      rw [h9] at hrest hlen9
      have hsplit : cs.take len =
          cs.take 9 ++ ((rest.takeWhile jsWs) ++ ['(']) := by
        rw [← h]
        rw [show 9 + (rest.takeWhile jsWs).length + 1
              = 9 + ((rest.takeWhile jsWs).length + 1) by omega]
        rw [List.take_add]
        congr 1
        rw [← hrest, List.take_add, take_len_takeWhile, hd]
        rfl
      rw [Bool.eq_false_iff]
      intro hmem
      have hm : bq ∈ cs.take len := List.elem_iff.mp hmem
      rw [hsplit] at hm
      rcases List.mem_append.mp hm with h1 | h2
      · have hfalse := stripCIChars_no_bq "@delegate".data cs rest (by decide) hs
        rw [h9] at hfalse
        have htrue : (cs.take 9).contains bq = true := List.elem_iff.mpr h1
        rw [hfalse] at htrue
        exact Bool.noConfusion htrue
      · rcases List.mem_append.mp h2 with h3 | h4
        · have htrue : ((rest.takeWhile jsWs).contains bq) = true := List.elem_iff.mpr h3
          rw [takeWhile_no_bq rest] at htrue
          exact Bool.noConfusion htrue
        · revert h4
          decide



theorem contains_cons_false {c : Char} {l : List Char} {a : Char}
    (h : ((c :: l).contains a) = false) : ¬ c = a ∧ (l.contains a) = false := by
  rw [Bool.eq_false_iff] at h ⊢
  constructor
  · intro hc
    exact h (List.elem_iff.mpr (by simp [hc]))
  · intro hl
    exact h (List.elem_iff.mpr (List.mem_cons_of_mem c (List.elem_iff.mp hl)))


theorem contains_drop_false {l : List Char} {a : Char} (k : Nat)
    (h : (l.contains a) = false) : ((l.drop k).contains a) = false := by
  rw [Bool.eq_false_iff] at h ⊢
  intro hd
  exact h (List.elem_iff.mpr (List.mem_of_mem_drop (List.elem_iff.mp hd)))


/-- Scanning a backtick-free region that is wholly covered by the code-block
ranges produces no delegations: the scan exits the region at the backtick
that follows it.  A `@delegate` head match inside the region cannot reach
past the region (its matched characters contain no backtick), so every match
is skipped by the range check. -/
theorem scanDelegationsF_skip_free :
    ∀ (n : Nat) (inr : List Char), inr.length = n →
    inr.contains bq = false →
    ∀ (R : List (Nat × Nat)) (u : List Char) (i f : Nat),
    (inr ++ bq :: u).length ≤ f →
    (∀ j, i ≤ j → j < i + inr.length → insideRanges R j = true) →
    scanDelegationsF f R (inr ++ bq :: u) i
      = scanDelegationsF (u.length + 1) R (bq :: u) (i + inr.length) := by
  intro n
  induction n using Nat.strong_induction_on with
  | _ n ih =>
    intro inr hlen hfree R u i f hf hcov
    cases inr with
    | nil =>
      simp only [List.nil_append, List.length_nil, Nat.add_zero]
      exact scanDelegationsF_fuel_eq f (u.length + 1) R (bq :: u) i
        (by simpa using hf) (by simp)
    | cons c inr' =>
      simp only [List.length_cons] at hlen
      simp only [List.cons_append, List.length_cons, List.length_append] at hf
      cases f with
      | zero => omega
      | succ f =>
        obtain ⟨hc, hfree'⟩ := contains_cons_false hfree
        rw [List.cons_append, scanDelegationsF_step]
        rcases hm : matchDelegateHead (c :: (inr' ++ bq :: u)) with _ | len
        · have hstep := ih inr'.length (by omega) inr' rfl hfree' R u (i + 1) f
            (by simp only [List.length_append, List.length_cons]; omega)
            (fun j h1 h2 => hcov j (by omega)
              (by simp only [List.length_cons]; omega))
          simp only [hm]
          rw [hstep]
          congr 1
          simp only [List.length_cons]
          omega
        · have hpos := matchDelegateHead_pos hm
          have hins : insideRanges R i = true :=
            hcov i (Nat.le_refl i) (by simp only [List.length_cons]; omega)
          -- the match cannot reach past the backtick-free region
          have hle : len ≤ inr'.length + 1 := by
            by_contra hgt
            push_neg at hgt
            have hnb := matchDelegateHead_no_bq hm
            have hmem : bq ∈ (c :: (inr' ++ bq :: u)).take len := by
              rw [show (c :: (inr' ++ bq :: u)) = (c :: inr') ++ (bq :: u) by simp]
              rw [List.take_append_eq_append_take]
              refine List.mem_append.mpr (Or.inr ?_)
              obtain ⟨k, hk⟩ : ∃ k, len - (c :: inr').length = k + 1 :=
                ⟨len - (c :: inr').length - 1, by simp only [List.length_cons]; omega⟩
              rw [hk]
              simp
            have htrue : ((c :: (inr' ++ bq :: u)).take len).contains bq = true :=
              List.elem_iff.mpr hmem
            rw [hnb] at htrue
            exact Bool.noConfusion htrue
          simp only [hm, hins, if_true]
          have hdrop : (c :: (inr' ++ bq :: u)).drop len
              = ((c :: inr').drop len) ++ (bq :: u) := by
            rw [show (c :: (inr' ++ bq :: u)) = (c :: inr') ++ (bq :: u) by simp]
            exact List.drop_append_of_le_length (by simp only [List.length_cons]; omega)
          rw [hdrop]
          have hstep := ih ((c :: inr').drop len).length
              (by simp only [List.length_drop, List.length_cons]; omega)
              ((c :: inr').drop len) rfl
              (contains_drop_false len hfree) R u (i + len) f
              (by simp only [List.length_append, List.length_drop, List.length_cons]; omega)
              (fun j h1 h2 => hcov j (by omega)
                (by simp only [List.length_drop, List.length_cons] at h2 ⊢; omega))
          rw [hstep]
          congr 1
          simp only [List.length_drop, List.length_cons]
          omega


theorem startsTriple_false {c : Char} (hc : ¬ c = bq) (cs : List Char) :
    startsTriple (c :: cs) = false := by
  cases cs with
  | nil => rfl
  | cons b cs2 =>
    cases cs2 with
    | nil => rfl
    | cons e cs3 => simp [startsTriple, hc]


theorem findTripleIdx_fence :
    ∀ (inr : List Char), inr.contains bq = false → ∀ (t : List Char),
    findTripleIdx (inr ++ bq :: bq :: bq :: t) = some inr.length := by
  intro inr
  induction inr with
  | nil =>
    intro _ t
    show findTripleIdx (bq :: bq :: bq :: t) = some 0
    simp [findTripleIdx, startsTriple]
  | cons c inr' ih =>
    intro hfree t
    obtain ⟨hc, hfree'⟩ := contains_cons_false hfree
    show findTripleIdx (c :: (inr' ++ bq :: bq :: bq :: t)) = some (inr'.length + 1)
    rw [findTripleIdx, if_neg (by simp [startsTriple_false hc]), ih hfree' t]
    rfl


theorem tryMatchAt_fence {inr : List Char} (h : inr.contains bq = false) (t : List Char) :
    tryMatchAt (bq :: bq :: bq :: (inr ++ bq :: bq :: bq :: t))
      = some (3 + inr.length + 3) := by
  unfold tryMatchAt
  rw [if_pos (by simp [startsTriple])]
  have hdrop : (bq :: bq :: bq :: (inr ++ bq :: bq :: bq :: t)).drop 3
      = inr ++ bq :: bq :: bq :: t := rfl
  rw [hdrop, findTripleIdx_fence inr h t]


theorem scanBlocksF_shift :
    ∀ (f : Nat) (cs : List Char) (i d : Nat),
    scanBlocksF f cs (d + i) = (scanBlocksF f cs i).map (shiftRange d) := by
  intro f
  induction f with
  | zero => intro cs i d; rfl
  | succ f ih =>
    intro cs i d
    cases cs with
    | nil => rfl
    | cons c rest =>
      rw [scanBlocksF_step, scanBlocksF_step]
      rcases hm : tryMatchAt (c :: rest) with _ | len
      · simp only [hm]
        rw [show d + i + 1 = d + (i + 1) by omega]
        exact ih rest (i + 1) d
      · simp only [hm, List.map_cons]
        congr 1
        · simp [shiftRange]
          omega
        · rw [show d + i + len = d + (i + len) by omega]
          exact ih ((c :: rest).drop len) (i + len) d


theorem codeBlockRanges_fenced (inner T : String) (h : inner.data.contains bq = false) :
    codeBlockRanges (fenced inner ++ T)
      = (0, inner.data.length + 6) ::
          (codeBlockRanges T).map (shiftRange (inner.data.length + 6)) := by
  have hdata : (fenced inner ++ T).data
      = bq :: bq :: bq :: (inner.data ++ bq :: bq :: bq :: T.data) := by
    have hf : fence.data = [bq, bq, bq] := rfl
    simp [fenced, String.data_append, hf]
  unfold codeBlockRanges
  rw [hdata]
  have hlen : (bq :: bq :: bq :: (inner.data ++ bq :: bq :: bq :: T.data)).length
      = (inner.data.length + 6 + T.data.length) := by
    simp
    omega
  rw [hlen]
  obtain ⟨g, hg⟩ : ∃ g, inner.data.length + 6 + T.data.length = g + 1 :=
    ⟨inner.data.length + 5 + T.data.length, by omega⟩
  rw [hg, scanBlocksF_step, tryMatchAt_fence h]
  have hdrop : (bq :: bq :: bq :: (inner.data ++ bq :: bq :: bq :: T.data)).drop
      (3 + inner.data.length + 3) = T.data := by
    rw [show (bq :: bq :: bq :: (inner.data ++ bq :: bq :: bq :: T.data))
        = ((bq :: bq :: bq :: inner.data) ++ [bq, bq, bq]) ++ T.data by simp]
    rw [show 3 + inner.data.length + 3
        = ((bq :: bq :: bq :: inner.data) ++ [bq, bq, bq]).length by simp; omega]
    exact List.drop_left _ _
  simp only [hdrop]
  have hfuel : scanBlocksF g T.data (0 + (3 + inner.data.length + 3))
      = scanBlocksF T.data.length T.data (0 + (3 + inner.data.length + 3)) :=
    scanBlocksF_fuel_eq g T.data.length T.data _ (by omega) (Nat.le_refl _)
  rw [hfuel]
  rw [show (0 : Nat) + (3 + inner.data.length + 3) = (inner.data.length + 6) + 0 by omega]
  rw [scanBlocksF_shift T.data.length T.data 0 (inner.data.length + 6)]



/-- **C4.** For every text `T`, the delegation parser returns the same
sequence of delegations on `T` as on `T` prefixed by a triple-backtick
fenced block with arbitrary (backtick-free) content — in particular
`@delegate(...)` text inside the fenced block is never returned. -/
theorem parseDelegations_fenced_invariant (inner T : String)
    (h : inner.data.contains bq = false) :
    parseDelegations (fenced inner ++ T) = parseDelegations T := by
  have hdata : (fenced inner ++ T).data
      = bq :: bq :: bq :: (inner.data ++ bq :: bq :: bq :: T.data) := by
    have hfd : fence.data = [bq, bq, bq] := rfl
    simp [fenced, String.data_append, hfd]
  unfold parseDelegations
  rw [codeBlockRanges_fenced inner T h, hdata]
  have hlen : (bq :: bq :: bq :: (inner.data ++ bq :: bq :: bq :: T.data)).length
      = inner.data.length + 6 + T.data.length := by
    simp only [List.length_cons, List.length_append]
    omega
  rw [hlen]
  rw [scanDelegationsF_bq_step _ _ _ _
    (by simp only [List.length_cons, List.length_append]; omega)]
  rw [scanDelegationsF_bq_step _ _ _ _
    (by simp only [List.length_cons, List.length_append]; omega)]
  rw [scanDelegationsF_bq_step _ _ _ _
    (by simp only [List.length_cons, List.length_append]; omega)]
  have hcov : ∀ j, 0 + 1 + 1 + 1 ≤ j → j < 0 + 1 + 1 + 1 + inner.data.length →
      insideRanges ((0, inner.data.length + 6) ::
        (codeBlockRanges T).map (shiftRange (inner.data.length + 6))) j = true := by
    intro j h1 h2
    simp only [insideRanges, List.any_cons, Bool.or_eq_true, Bool.and_eq_true,
      decide_eq_true_eq]
    exact Or.inl ⟨by omega, by omega⟩
  rw [scanDelegationsF_skip_free inner.data.length inner.data rfl h _
    (bq :: bq :: T.data) (0 + 1 + 1 + 1)
    (inner.data ++ bq :: bq :: bq :: T.data).length (Nat.le_refl _) hcov]
  rw [scanDelegationsF_bq_step _ _ _ _
    (by simp only [List.length_cons]; omega)]
  rw [scanDelegationsF_bq_step _ _ _ _
    (by simp only [List.length_cons]; omega)]
  rw [scanDelegationsF_bq_step _ _ _ _
    (by simp only [List.length_cons]; omega)]
  rw [scanDelegationsF_drop_head T.data.length (inner.data.length + 6)
    ((codeBlockRanges T).map (shiftRange (inner.data.length + 6))) T.data
    (0 + 1 + 1 + 1 + inner.data.length + 1 + 1 + 1) (by omega)]
  rw [show 0 + 1 + 1 + 1 + inner.data.length + 1 + 1 + 1
      = (inner.data.length + 6) + 0 by omega]
  rw [scanDelegationsF_shift T.data.length (codeBlockRanges T) T.data 0
    (inner.data.length + 6)]




/-- Witness for C4: a fenced tutorial block containing a `@delegate` example
does not change the parse of the text that follows it. -/
theorem parseDelegations_fenced_invariant_witness :
    parseDelegations
        (fenced "@delegate(Developer, \"example\")" ++ " @delegate(QA, \"run tests\")")
      = parseDelegations " @delegate(QA, \"run tests\")" :=
  parseDelegations_fenced_invariant "@delegate(Developer, \"example\")"
    " @delegate(QA, \"run tests\")" (by decide)


/-! ## State-operation lemmas for the engine -/

theorem find?_map_update (l : List (Nat × AgentR)) (id : Nat) (a : AgentR)
    (h : (l.find? (fun e => e.1 = id)).isSome) :
    (l.map (fun e => if e.1 = id then (e.1, a) else e)).find? (fun e => e.1 = id)
      = some (id, a) := by
  induction l with
  | nil => simp [List.find?] at h
  | cons x xs ih =>
    by_cases hx : x.1 = id
    · simp only [List.map_cons, if_pos hx, List.find?,
        show (decide ((x.1, a).1 = id)) = true by simpa using hx]
      rw [hx]
    · simp only [List.find?, show (decide (x.1 = id)) = false by simpa using hx] at h
      simp only [List.map_cons, if_neg hx, List.find?,
        show (decide (x.1 = id)) = false by simpa using hx]
      exact ih h


theorem find?_map_update_ne (l : List (Nat × AgentR)) (id aid : Nat) (a : AgentR)
    (h : aid ≠ id) :
    (l.map (fun e => if e.1 = id then (e.1, a) else e)).find? (fun e => e.1 = aid)
      = l.find? (fun e => e.1 = aid) := by
  induction l with
  | nil => rfl
  | cons x xs ih =>
    by_cases hx : x.1 = id
    · have hne : (decide (x.1 = aid)) = false := by
        simp only [decide_eq_false_iff_not]
        rw [hx]
        exact fun hh => h hh.symm
      simp only [List.map_cons, if_pos hx, List.find?,
        show (decide ((x.1, a).1 = aid)) = false by simpa using hne, hne]
      exact ih
    · by_cases hxa : x.1 = aid
      · simp only [List.map_cons, if_neg hx, List.find?,
          show (decide (x.1 = aid)) = true by simpa using hxa]
      · simp only [List.map_cons, if_neg hx, List.find?,
          show (decide (x.1 = aid)) = false by simpa using hxa]
        exact ih


theorem getAgent_setAgent_self {st : Sys} {id : Nat} {a0 : AgentR} (a : AgentR)
    (h : st.getAgent id = some a0) :
    (st.setAgent id a).getAgent id = some a := by
  unfold Sys.getAgent Sys.setAgent at *
  rw [find?_map_update]
  · rfl
  · rcases hf : st.agents.find? (fun e => e.1 = id) with _ | e
    · rw [hf] at h; simp at h
    · rw [hf]; rfl


theorem getAgent_setAgent_ne {st : Sys} {id aid : Nat} (a : AgentR) (h : aid ≠ id) :
    (st.setAgent id a).getAgent aid = st.getAgent aid := by
  unfold Sys.getAgent Sys.setAgent
  rw [find?_map_update_ne _ _ _ _ h]


theorem getAgent_emit (st : Sys) (e : Ev) (id : Nat) :
    (st.emit e).getAgent id = st.getAgent id := rfl


theorem now_emit (st : Sys) (e : Ev) : (st.emit e).now = st.now := rfl


theorem script_emit (st : Sys) (e : Ev) : (st.emit e).script = st.script := rfl


theorem now_setAgent (st : Sys) (id : Nat) (a : AgentR) : (st.setAgent id a).now = st.now := rfl


theorem script_setAgent (st : Sys) (id : Nat) (a : AgentR) :
    (st.setAgent id a).script = st.script := rfl


theorem getAgent_setStatusE_self {st : Sys} {id : Nat} {a0 : AgentR} (s : AgentStatus)
    (h : st.getAgent id = some a0) :
    (setStatusE st id s).getAgent id = some { a0 with status := s } := by
  unfold setStatusE
  rw [h, getAgent_emit, getAgent_setAgent_self _ h]


theorem now_setStatusE (st : Sys) (id : Nat) (s : AgentStatus) :
    (setStatusE st id s).now = st.now := by
  unfold setStatusE
  rcases st.getAgent id with _ | a <;> rfl


theorem script_setStatusE (st : Sys) (id : Nat) (s : AgentStatus) :
    (setStatusE st id s).script = st.script := by
  unfold setStatusE
  rcases st.getAgent id with _ | a <;> rfl


theorem getAgent_modifyAgent_self {st : Sys} {id : Nat} {a0 : AgentR} (f : AgentR → AgentR)
    (h : st.getAgent id = some a0) :
    (st.modifyAgent id f).getAgent id = some (f a0) := by
  unfold Sys.modifyAgent
  rw [h, getAgent_setAgent_self _ h]


theorem now_modifyAgent (st : Sys) (id : Nat) (f : AgentR → AgentR) :
    (st.modifyAgent id f).now = st.now := by
  unfold Sys.modifyAgent
  rcases st.getAgent id with _ | a <;> rfl


theorem script_modifyAgent (st : Sys) (id : Nat) (f : AgentR → AgentR) :
    (st.modifyAgent id f).script = st.script := by
  unfold Sys.modifyAgent
  rcases st.getAgent id with _ | a <;> rfl


theorem events_mem_emit {st : Sys} {e : Ev} (x : Ev) (h : e ∈ st.events) :
    e ∈ (st.emit x).events := by
  unfold Sys.emit
  simp only [List.mem_append]
  exact Or.inl h


theorem events_mem_setStatusE {st : Sys} {e : Ev} (id : Nat) (s : AgentStatus)
    (h : e ∈ st.events) : e ∈ (setStatusE st id s).events := by
  unfold setStatusE
  rcases st.getAgent id with _ | a
  · exact h
  · exact events_mem_emit _ h


theorem events_mem_catchEffects {st : Sys} {e : Ev} (id : Nat) (err : EngineErr)
    (h : e ∈ st.events) : e ∈ (catchEffects st id err).events := by
  unfold catchEffects
  rcases st.getAgent id with _ | a
  · exact h
  · exact events_mem_setStatusE _ _ h


theorem stopAgentEffects_spec {st : Sys} {id : Nat} {a0 : AgentR}
    (h : st.getAgent id = some a0) :
    (stopAgentEffects st id).getAgent id
        = some { a0 with currentThinking := "", status := .idle } ∧
    Ev.stopped id a0.name ∈ (stopAgentEffects st id).events := by
  unfold stopAgentEffects
  rw [h]
  have h1 : (st.setAgent id { a0 with currentThinking := "" }).getAgent id
      = some { a0 with currentThinking := "" } := getAgent_setAgent_self _ h
  constructor
  · rw [getAgent_emit, getAgent_setStatusE_self _ h1]
  · exact List.mem_append.mpr (Or.inr (by simp))


theorem catchEffects_spec {st : Sys} {id : Nat} {a0 : AgentR} (err : EngineErr)
    (h : st.getAgent id = some a0) :
    (catchEffects st id err).getAgent id = some
      { a0 with
        metrics := { a0.metrics with errors := a0.metrics.errors + 1 }
        currentThinking := ""
        status := if errMessage err = "Agent stopped by user" then .idle else .error } := by
  unfold catchEffects
  rw [h]
  have h1 := getAgent_setAgent_self
    { a0 with
      metrics := { a0.metrics with errors := a0.metrics.errors + 1 }
      currentThinking := "" } h
  rw [getAgent_setStatusE_self _ h1]


theorem getAgent_withScript (st : Sys) (s : List ProviderTurn) (id : Nat) :
    ({ st with script := s } : Sys).getAgent id = st.getAgent id := rfl


theorem runStreamF_abort :
    ∀ (cs : List Chunk) (i k : Nat) (acc : StreamAcc), i ≤ k → k < i + cs.length →
    ∃ acc2, runStreamF cs i (some k) acc = .error acc2 := by
  intro cs
  induction cs with
  | nil =>
    intro i k acc h1 h2
    simp at h2
    omega
  | cons c cs ih =>
    intro i k acc h1 h2
    by_cases hik : k = i
    · subst hik
      exact ⟨acc, by simp [runStreamF]⟩
    · unfold runStreamF
      rw [if_neg (by simpa using hik)]
      exact ih (i + 1) k _ (by omega) (by simp only [List.length_cons] at h2 ⊢; omega)



/-- **C7.** A turn cancelled by the user mid-stream raises the
"stopped by user" failure; the agent ends at status idle (not error);
`agent:stopped` is published; the history entries that existed before the
cancellation are preserved and no assistant entry is appended — the final
history is the prior history plus only the turn's user message. -/
theorem sendMessage_cancelled_mid_stream
    (st : Sys) (id : Nat) (userMessage : String) (depth : Nat)
    (meta : Option (String × Option String))
    (agent : AgentR) (turn : ProviderTurn) (srest : List ProviderTurn) (k : Nat)
    (hA : st.getAgent id = some agent)
    (hS : st.script = turn :: srest)
    (hK : turn.abortAtChunk = some k)
    (hLt : k < turn.chunks.length) :
    (sendMessage st id userMessage depth meta).1 = .error .stoppedByUser ∧
    ((sendMessage st id userMessage depth meta).2.getAgent id).map (·.status)
      = some .idle ∧
    Ev.stopped id agent.name ∈ (sendMessage st id userMessage depth meta).2.events ∧
    ((sendMessage st id userMessage depth meta).2.getAgent id).map
        (·.conversationHistory)
      = some (agent.conversationHistory ++
          [{ role := "user"
             content := userMessage
             timestamp := st.now
             htype := meta.map (·.1)
             fromAgent := meta.bind (·.2) }]) := by
  obtain ⟨accE, hrs⟩ := runStreamF_abort turn.chunks 0 k ⟨"", 0, 0⟩ (Nat.zero_le k)
    (by simpa using hLt)
  rw [sendMessage]
  simp only [hA]
  simp only [Sys.nextTurn, script_modifyAgent, script_setStatusE, hS, hK, hrs]
  have hA1 : ({ st with
                script := turn :: srest
                trace := st.trace ++ [(id, depth)] } : Sys).getAgent id = some agent := hA
  have hnow1 : ({ st with
                  script := turn :: srest
                  trace := st.trace ++ [(id, depth)] } : Sys).now = st.now := rfl
  generalize hg1 : ({ st with
                      script := turn :: srest
                      trace := st.trace ++ [(id, depth)] } : Sys) = y1
  rw [hg1] at hA1 hnow1
  have hA2 := getAgent_setStatusE_self .busy hA1
  have hA3 := getAgent_modifyAgent_self (fun a => { a with currentThinking := "" }) hA2
  have hnow3 : ((setStatusE y1 id .busy).modifyAgent id
      (fun a => { a with currentThinking := "" })).now = st.now := by
    rw [now_modifyAgent, now_setStatusE, hnow1]
  have hA4 := getAgent_modifyAgent_self
    (fun a => { a with conversationHistory := a.conversationHistory ++
      [{ role := "user"
         content := userMessage
         timestamp := ((setStatusE y1 id .busy).modifyAgent id
           (fun a => { a with currentThinking := "" })).now
         htype := meta.map (fun x => x.1)
         fromAgent := meta.bind (fun x => x.2) }] }) hA3
  rw [← getAgent_withScript _ srest] at hA4
  obtain ⟨hstopA, hstopE⟩ := stopAgentEffects_spec hA4
  have hcatch := catchEffects_spec .stoppedByUser hstopA
  refine ⟨trivial, ?_, ?_, ?_⟩
  · rw [hcatch]
    simp [errMessage]
  · exact events_mem_catchEffects _ _ hstopE
  · rw [hcatch]
    rw [hnow3]
    simp


theorem sendMessage_cancelled_mid_stream_witness :
    (sendMessage stAbortC 0 "go" 0 none).1 = .error .stoppedByUser ∧
    ((sendMessage stAbortC 0 "go" 0 none).2.getAgent 0).map (·.status) = some .idle ∧
    Ev.stopped 0 devAgentC.name ∈ (sendMessage stAbortC 0 "go" 0 none).2.events ∧
    ((sendMessage stAbortC 0 "go" 0 none).2.getAgent 0).map (·.conversationHistory)
      = some (devAgentC.conversationHistory ++
          [{ role := "user"
             content := "go"
             timestamp := stAbortC.now
             htype := none
             fromAgent := none }]) :=
  sendMessage_cancelled_mid_stream stAbortC 0 "go" 0 none devAgentC
    { chunks := [.text "a", .text "b", .text "c"], abortAtChunk := some 2 } [] 2
    (by rfl) (by rfl) (by rfl) (by decide)


theorem Qinv_refl (st : Sys) (d : Nat) : Qinv st st d :=
  ⟨fun _ => rfl, fun _ _ he => Or.inl he⟩


theorem Qinv_trans {st1 st2 st3 : Sys} {d : Nat}
    (h1 : Qinv st1 st2 d) (h2 : Qinv st2 st3 d) : Qinv st1 st3 d := by
  refine ⟨fun aid => ?_, fun hd e he => ?_⟩
  · have a1 := h1.1 aid
    have a2 := h2.1 aid
    omega
  · rcases h2.2 hd e he with h | h
    · exact h1.2 hd e h
    · exact Or.inr h


theorem Qinv_mono {st st2 : Sys} {d d2 : Nat} (h : Qinv st st2 d2)
    (hle : d ≤ MAX_DELEGATION_DEPTH → d2 ≤ MAX_DELEGATION_DEPTH) : Qinv st st2 d :=
  ⟨h.1, fun hd => h.2 (hle hd)⟩


theorem Qinv_of_eq {st st2 : Sys} (d : Nat)
    (ha : st2.agents = st.agents) (ht : st2.trace = st.trace) : Qinv st st2 d := by
  constructor
  · intro aid
    have hg : st2.getAgent aid = st.getAgent aid := by
      unfold Sys.getAgent
      rw [ha]
    unfold tmOf acOf
    rw [hg]
  · intro _ e he
    rw [ht] at he
    exact Or.inl he


theorem Qinv_trace_push (st : Sys) (id d : Nat) :
    Qinv st { st with trace := st.trace ++ [(id, d)] } d := by
  constructor
  · intro _
    rfl
  · intro hd e he
    simp only [List.mem_append, List.mem_singleton] at he
    rcases he with h | h
    · exact Or.inl h
    · subst h
      exact Or.inr hd


theorem Qinv_emit (st : Sys) (e : Ev) (d : Nat) : Qinv st (st.emit e) d :=
  Qinv_of_eq d rfl rfl


theorem Qinv_setAgent {st : Sys} {id : Nat} {a0 : AgentR} (a : AgentR) (d : Nat)
    (h : st.getAgent id = some a0)
    (hp : a.metrics.totalMessages + acA a0 = a0.metrics.totalMessages + acA a) :
    Qinv st (st.setAgent id a) d := by
  constructor
  · intro aid
    by_cases haid : aid = id
    · subst haid
      have h2 := getAgent_setAgent_self a h
      unfold tmOf acOf
      rw [h2, h]
      exact hp
    · have h2 := @getAgent_setAgent_ne st id aid a haid
      unfold tmOf acOf
      rw [h2]
  · intro _ e he
    exact Or.inl he


theorem Qinv_setStatusE (st : Sys) (id : Nat) (s : AgentStatus) (d : Nat) :
    Qinv st (setStatusE st id s) d := by
  unfold setStatusE
  rcases hg : st.getAgent id with _ | a
  · exact Qinv_refl st d
  · show Qinv st ((st.setAgent id { a with status := s }).emit (.statusEv id s)) d
    exact Qinv_trans (Qinv_setAgent { a with status := s } d hg rfl) (Qinv_emit _ _ d)


theorem Qinv_modify (st : Sys) (id : Nat) (f : AgentR → AgentR) (d : Nat)
    (hf : ∀ a, (f a).metrics.totalMessages + acA a
        = a.metrics.totalMessages + acA (f a)) :
    Qinv st (st.modifyAgent id f) d := by
  unfold Sys.modifyAgent
  rcases hg : st.getAgent id with _ | a
  · exact Qinv_refl st d
  · exact Qinv_setAgent _ d hg (hf a)


theorem Qinv_stopAgentEffects (st : Sys) (id : Nat) (d : Nat) :
    Qinv st (stopAgentEffects st id) d := by
  unfold stopAgentEffects
  rcases hg : st.getAgent id with _ | a
  · exact Qinv_refl st d
  · show Qinv st ((setStatusE (st.setAgent id { a with currentThinking := "" })
      id .idle).emit (.stopped id a.name)) d
    exact Qinv_trans (Qinv_setAgent { a with currentThinking := "" } d hg rfl)
      (Qinv_trans (Qinv_setStatusE _ _ _ d) (Qinv_emit _ _ d))


theorem Qinv_catchEffects (st : Sys) (id : Nat) (e : EngineErr) (d : Nat) :
    Qinv st (catchEffects st id e) d := by
  unfold catchEffects
  rcases hg : st.getAgent id with _ | a
  · exact Qinv_refl st d
  · show Qinv st (setStatusE (st.setAgent id
      { a with
        metrics := { a.metrics with errors := a.metrics.errors + 1 }
        currentThinking := "" }) id
      (if errMessage e = "Agent stopped by user" then .idle else .error)) d
    exact Qinv_trans (Qinv_setAgent
      { a with
        metrics := { a.metrics with errors := a.metrics.errors + 1 }
        currentThinking := "" } d hg rfl) (Qinv_setStatusE _ _ _ d)


theorem Qinv_addTodoE (st : Sys) (id : Nat) (text : String) (d : Nat) :
    Qinv st (addTodoE st id text).1 d := by
  unfold addTodoE
  rcases hg : st.getAgent id with _ | a
  · exact Qinv_refl st d
  · show Qinv st (({ st.setAgent id
        { a with todoList := a.todoList ++ [⟨st.nextId, text, false, st.now, none⟩] } with
        nextId := (st.setAgent id
          { a with todoList := a.todoList ++
            [⟨st.nextId, text, false, st.now, none⟩] }).nextId + 1 } : Sys).emit
      (.updated id)) d
    exact Qinv_trans (Qinv_setAgent
      { a with todoList := a.todoList ++ [⟨st.nextId, text, false, st.now, none⟩] }
      d hg rfl)
      (Qinv_trans (Qinv_of_eq d rfl rfl) (Qinv_emit _ _ d))


theorem Qinv_markTodoDone (st : Sys) (id todoId : Nat) (d : Nat) :
    Qinv st (markTodoDone st id todoId) d := by
  unfold markTodoDone
  rcases hg : st.getAgent id with _ | a
  · exact Qinv_refl st d
  · show Qinv st (if (a.todoList.find? (fun t => t.id = todoId)).isSome then
        ((st.setAgent id { a with todoList := a.todoList.map (fun t =>
          if t.id = todoId then { t with done := true, completedAt := some st.now }
          else t) }).emit (.updated id))
      else st) d
    by_cases hi : (a.todoList.find? (fun t => t.id = todoId)).isSome
    · rw [if_pos hi]
      exact Qinv_trans (Qinv_setAgent
        { a with todoList := a.todoList.map (fun t =>
          if t.id = todoId then { t with done := true, completedAt := some st.now }
          else t) } d hg rfl) (Qinv_emit _ _ d)
    · rw [if_neg hi]
      exact Qinv_refl st d


theorem Qinv_nextExecs (st : Sys) (d : Nat) : Qinv st (st.nextExecs).2 d := by
  unfold Sys.nextExecs
  rcases st.execsQueue with _ | ⟨e, rest⟩
  · exact Qinv_refl st d
  · exact Qinv_of_eq d rfl rfl


theorem Qinv_runToolCalls (calls : List ToolCall) :
    ∀ (st : Sys) (id : Nat) (project : String) (d : Nat),
    Qinv st (runToolCalls st id project calls).1 d := by
  induction calls with
  | nil =>
    intro st id project d
    exact Qinv_refl st d
  | cons call rest ih =>
    intro st id project d
    rw [runToolCalls]
    by_cases hrep : call.tool = "report_error"
    · rw [if_pos hrep]
      rcases hrec : runToolCalls (st.emit (.errorReport id (orUnknown (call.args.getD 0 ""))))
          id project rest with ⟨st2, rs⟩
      simp only [hrec]
      refine Qinv_trans (Qinv_emit st (.errorReport id (orUnknown (call.args.getD 0 ""))) d) ?_
      have h2 := ih (st.emit (.errorReport id (orUnknown (call.args.getD 0 "")))) id project d
      rw [hrec] at h2
      exact h2
    · rw [if_neg hrep]
      rcases hne : (st.emit (.toolStart id call.tool call.args)).nextExecs with ⟨es, st2⟩
      simp only [hne]
      rcases hex : executeTool call.tool call.args project st2.fs es with ⟨tr, fs2⟩
      simp only [hex]
      have hq2 : Qinv st st2 d := by
        refine Qinv_trans (Qinv_emit st (.toolStart id call.tool call.args) d) ?_
        have h3 := Qinv_nextExecs (st.emit (.toolStart id call.tool call.args)) d
        rw [hne] at h3
        exact h3
      by_cases hsucc : tr.success
      · simp only [if_pos hsucc]
        rcases hrec : runToolCalls (({ st2 with fs := fs2 } : Sys).emit
            (.toolResultEv id call.tool)) id project rest with ⟨st3, rs⟩
        simp only [hrec]
        refine Qinv_trans hq2 ?_
        refine Qinv_trans (show Qinv st2 ({ st2 with fs := fs2 } : Sys) d from
          Qinv_of_eq d rfl rfl) ?_
        refine Qinv_trans (Qinv_emit ({ st2 with fs := fs2 } : Sys)
          (.toolResultEv id call.tool) d) ?_
        have h4 := ih (({ st2 with fs := fs2 } : Sys).emit (.toolResultEv id call.tool))
          id project d
        rw [hrec] at h4
        exact h4
      · simp only [if_neg hsucc]
        rcases hrec : runToolCalls (({ st2 with fs := fs2 } : Sys).emit
            (.toolErrorEv id call.tool (tr.error.getD "Unknown error")))
            id project rest with ⟨st3, rs⟩
        simp only [hrec]
        refine Qinv_trans hq2 ?_
        refine Qinv_trans (show Qinv st2 ({ st2 with fs := fs2 } : Sys) d from
          Qinv_of_eq d rfl rfl) ?_
        refine Qinv_trans (Qinv_emit ({ st2 with fs := fs2 } : Sys)
          (.toolErrorEv id call.tool (tr.error.getD "Unknown error")) d) ?_
        have h4 := ih (({ st2 with fs := fs2 } : Sys).emit
          (.toolErrorEv id call.tool (tr.error.getD "Unknown error"))) id project d
        rw [hrec] at h4
        exact h4


theorem filter_len_push (hist : List HistoryEntry) (e : HistoryEntry) :
    ((hist ++ [e]).filter (fun x => x.role = "assistant")).length
      = (hist.filter (fun x => x.role = "assistant")).length
        + (if e.role = "assistant" then 1 else 0) := by
  simp only [List.filter_append]
  rw [List.length_append]
  congr 1
  by_cases he : e.role = "assistant"
  · simp [List.filter, he]
  · simp [List.filter, he]


theorem Qinv_nextTurn (st : Sys) (d : Nat) : Qinv st (st.nextTurn).2 d := by
  unfold Sys.nextTurn
  rcases st.script with _ | ⟨t, rest⟩
  · exact Qinv_refl st d
  · exact Qinv_of_eq d rfl rfl


theorem Qinv_modify_push (st : Sys) (id : Nat) (e : HistoryEntry) (d : Nat)
    (he : e.role ≠ "assistant") :
    Qinv st (st.modifyAgent id (fun a =>
      { a with conversationHistory := a.conversationHistory ++ [e] })) d := by
  refine Qinv_modify st id _ d (fun a => ?_)
  show a.metrics.totalMessages + acA a = a.metrics.totalMessages
    + ((a.conversationHistory ++ [e]).filter (fun x => x.role = "assistant")).length
  rw [filter_len_push, if_neg he]
  rfl


theorem Qinv_assistant_push (st : Sys) (id : Nat) (full : String) (ts : Nat) (d : Nat) :
    Qinv st (st.modifyAgent id (fun a =>
      { a with
        conversationHistory := a.conversationHistory ++
          [{ role := "assistant", content := full, timestamp := ts }]
        metrics := { a.metrics with
          totalMessages := a.metrics.totalMessages + 1
          lastActiveAt := some ts }
        currentThinking := "" })) d := by
  refine Qinv_modify st id _ d (fun a => ?_)
  show a.metrics.totalMessages + 1 + acA a = a.metrics.totalMessages
    + ((a.conversationHistory
        ++ [({ role := "assistant", content := full, timestamp := ts } : HistoryEntry)]).filter
        (fun x => x.role = "assistant")).length
  rw [filter_len_push, if_pos rfl]
  show a.metrics.totalMessages + 1 + acA a
    = a.metrics.totalMessages + (acA a + 1)
  omega


/-- The engine invariant: any call into the mutual engine moves the
`totalMessages` counter and the assistant-entry count of every agent in
lock-step, and every trace entry it appends carries a depth within the
delegation limit. -/
theorem Qinv_engine :
    ∀ n depth : Nat, MAX_DELEGATION_DEPTH - depth < n →
      (∀ (st : Sys) (lid : Nat) (lname : String) (ds : List Delegation)
        (h2 : depth < MAX_DELEGATION_DEPTH),
        Qinv st (runDelegations st lid lname ds depth h2).1 depth) ∧
      (∀ (st : Sys) (id : Nat) (agent : AgentR) (full : String) (chunks : List Chunk),
        Qinv st (sendTail st id agent full chunks depth).2 depth) ∧
      (∀ (st : Sys) (id : Nat) (msg : String) (meta : Option (String × Option String)),
        Qinv st (sendMessage st id msg depth meta).2 depth) := by
  intro n
  induction n with
  | zero =>
    intro depth hd
    exact absurd hd (Nat.not_lt_zero _)
  | succ m ih =>
    intro depth hd
    have hdeleg : ∀ (ds : List Delegation) (st : Sys) (lid : Nat) (lname : String)
        (h2 : depth < MAX_DELEGATION_DEPTH),
        Qinv st (runDelegations st lid lname ds depth h2).1 depth := by
      intro ds
      induction ds with
      | nil =>
        intro st lid lname h2
        rw [runDelegations]
        exact Qinv_refl st depth
      | cons dd rest ihd =>
        intro st lid lname h2
        rw [runDelegations]
        rcases hf : st.agents.find? (fun e =>
            strLower e.2.name = strLower dd.agentName && e.1 ≠ lid) with _ | tpair
        · simp only [hf]
          rcases hrec : runDelegations st lid lname rest depth h2 with ⟨st2, rs⟩
          simp only [hrec]
          have h3 := ihd st lid lname h2
          rw [hrec] at h3
          exact h3
        · rcases tpair with ⟨tid, tagent⟩
          simp only [hf]
          rcases hat : addTodoE (st.emit (.delegationEv lid tid dd.task)) tid
              ("[From " ++ lname ++ "] " ++ dd.task) with ⟨stA, todoq⟩
          simp only [hat]
          have hqA : Qinv st stA depth := by
            refine Qinv_trans (Qinv_emit st (.delegationEv lid tid dd.task) depth) ?_
            have h3 := Qinv_addTodoE (st.emit (.delegationEv lid tid dd.task)) tid
              ("[From " ++ lname ++ "] " ++ dd.task) depth
            rw [hat] at h3
            exact h3
          rcases hsm : sendMessage stA tid ("[TASK from " ++ lname ++ "]: " ++ dd.task)
              (depth + 1) (some ("delegation-task", some lname)) with ⟨r, stB⟩
          have hqB : Qinv st stB depth := by
            refine Qinv_trans hqA ?_
            have h4 := (ih (depth + 1) (by omega)).2.2 stA tid
              ("[TASK from " ++ lname ++ "]: " ++ dd.task)
              (some ("delegation-task", some lname))
            rw [hsm] at h4
            exact Qinv_mono h4 (fun _ => by omega)
          cases r with
          | ok resp =>
            simp only [hsm]
            rcases todoq with _ | t
            · rcases hrec : runDelegations stB lid lname rest depth h2 with ⟨stD, rs⟩
              simp only [hrec]
              refine Qinv_trans hqB ?_
              have h5 := ihd stB lid lname h2
              rw [hrec] at h5
              exact h5
            · rcases hrec : runDelegations (markTodoDone stB tid t.id) lid lname rest
                  depth h2 with ⟨stD, rs⟩
              simp only [hrec]
              refine Qinv_trans hqB ?_
              refine Qinv_trans (Qinv_markTodoDone stB tid t.id depth) ?_
              have h5 := ihd (markTodoDone stB tid t.id) lid lname h2
              rw [hrec] at h5
              exact h5
          | error e =>
            simp only [hsm]
            rcases hrec : runDelegations stB lid lname rest depth h2 with ⟨stD, rs⟩
            simp only [hrec]
            refine Qinv_trans hqB ?_
            have h5 := ihd stB lid lname h2
            rw [hrec] at h5
            exact h5
    have htail : ∀ (st : Sys) (id : Nat) (agent : AgentR) (full : String)
        (chunks : List Chunk),
        Qinv st (sendTail st id agent full chunks depth).2 depth := by
      intro st id agent full chunks
      rw [sendTail]
      by_cases hL : agent.isLeader = true ∧ depth < MAX_DELEGATION_DEPTH
      · rw [dif_pos hL]
        by_cases hdisp : (dispatchedOf chunks).length > 0
        · rw [if_pos hdisp]
          rcases hrd : runDelegations st id agent.name (dispatchedOf chunks) depth hL.2
              with ⟨st2, results⟩
          simp only [hrd]
          have hq2 : Qinv st st2 depth := by
            have h3 := hdeleg (dispatchedOf chunks) st id agent.name hL.2
            rw [hrd] at h3
            exact h3
          rcases hsm : sendMessage st2 id
              ("[DELEGATION RESULTS]\n" ++ delegationSummary results ++ "\n\n" ++
                synthesisHintFor results)
              (depth + 1) (some ("delegation-result", none)) with ⟨r, st3⟩
          have hq3 : Qinv st st3 depth := by
            refine Qinv_trans hq2 ?_
            have h4 := (ih (depth + 1) (by omega)).2.2 st2 id
              ("[DELEGATION RESULTS]\n" ++ delegationSummary results ++ "\n\n" ++
                synthesisHintFor results)
              (some ("delegation-result", none))
            rw [hsm] at h4
            exact Qinv_mono h4 (fun _ => by omega)
          cases r with
          | ok resp =>
            simp only [hsm]
            exact Qinv_trans hq3 (Qinv_setStatusE st3 id .idle depth)
          | error e =>
            simp only [hsm]
            exact Qinv_trans hq3 (Qinv_catchEffects st3 id e depth)
        · rw [if_neg hdisp]
          exact Qinv_setStatusE st id .idle depth
      · rw [dif_neg hL]
        exact Qinv_setStatusE st id .idle depth
    refine ⟨fun st lid lname ds h2 => hdeleg ds st lid lname h2, htail, ?_⟩
    intro st id msg meta
    rw [sendMessage]
    rcases hg : st.getAgent id with _ | agent
    · simp only [hg]
      exact Qinv_refl st depth
    · simp only [hg]
      have hq1 : Qinv st ({ st with trace := st.trace ++ [(id, depth)] } : Sys) depth :=
        Qinv_trace_push st id depth
      generalize hg1 : ({ st with trace := st.trace ++ [(id, depth)] } : Sys) = y1
      rw [hg1] at hq1
      have hq4 : Qinv st (((setStatusE y1 id .busy).modifyAgent id
          (fun a => { a with currentThinking := "" })).modifyAgent id
          (fun a => { a with conversationHistory := a.conversationHistory ++
            [{ role := "user"
               content := msg
               timestamp := ((setStatusE y1 id .busy).modifyAgent id
                 (fun a => { a with currentThinking := "" })).now
               htype := meta.map (fun x => x.1)
               fromAgent := meta.bind (fun x => x.2) }] })) depth := by
        refine Qinv_trans hq1 ?_
        refine Qinv_trans (Qinv_setStatusE y1 id .busy depth) ?_
        refine Qinv_trans (Qinv_modify (setStatusE y1 id .busy) id
          (fun a => { a with currentThinking := "" }) depth (fun a => rfl)) ?_
        refine Qinv_modify_push _ id _ depth ?_
        intro h
        have h2 : ("user" : String) = "assistant" := h
        exact absurd h2 (by decide)
      generalize hg4 : ((setStatusE y1 id .busy).modifyAgent id
          (fun a => { a with currentThinking := "" })).modifyAgent id
          (fun a => { a with conversationHistory := a.conversationHistory ++
            [{ role := "user"
               content := msg
               timestamp := ((setStatusE y1 id .busy).modifyAgent id
                 (fun a => { a with currentThinking := "" })).now
               htype := meta.map (fun x => x.1)
               fromAgent := meta.bind (fun x => x.2) }] }) = y4
      rw [hg4] at hq4
      rcases hnt : y4.nextTurn with ⟨turn, st5⟩
      simp only [hnt]
      have hq5 : Qinv st st5 depth := by
        refine Qinv_trans hq4 ?_
        have h5 := Qinv_nextTurn y4 depth
        rw [hnt] at h5
        exact h5
      rcases hrun : runStreamF turn.chunks 0 turn.abortAtChunk ⟨"", 0, 0⟩ with accE | acc
      · simp only [hrun]
        exact Qinv_trans hq5 (Qinv_trans (Qinv_stopAgentEffects st5 id depth)
          (Qinv_catchEffects (stopAgentEffects st5 id) id .stoppedByUser depth))
      · simp only [hrun]
        have hq7 : Qinv st ((st5.modifyAgent id (fun a =>
            { a with metrics := { a.metrics with
                totalTokensIn := a.metrics.totalTokensIn + acc.tin
                totalTokensOut := a.metrics.totalTokensOut + acc.tout } })).modifyAgent id
            (fun a => { a with
              conversationHistory := a.conversationHistory ++
                [{ role := "assistant"
                   content := acc.full
                   timestamp := (st5.modifyAgent id (fun a =>
                     { a with metrics := { a.metrics with
                         totalTokensIn := a.metrics.totalTokensIn + acc.tin
                         totalTokensOut := a.metrics.totalTokensOut + acc.tout } })).now }]
              metrics := { a.metrics with
                totalMessages := a.metrics.totalMessages + 1
                lastActiveAt := some (st5.modifyAgent id (fun a =>
                  { a with metrics := { a.metrics with
                      totalTokensIn := a.metrics.totalTokensIn + acc.tin
                      totalTokensOut := a.metrics.totalTokensOut + acc.tout } })).now }
              currentThinking := "" })) depth := by
          refine Qinv_trans hq5 ?_
          refine Qinv_trans (Qinv_modify st5 id (fun a =>
            { a with metrics := { a.metrics with
                totalTokensIn := a.metrics.totalTokensIn + acc.tin
                totalTokensOut := a.metrics.totalTokensOut + acc.tout } }) depth
            (fun a => rfl)) ?_
          exact Qinv_assistant_push _ id acc.full _ depth
        generalize hg7 : (st5.modifyAgent id (fun a =>
            { a with metrics := { a.metrics with
                totalTokensIn := a.metrics.totalTokensIn + acc.tin
                totalTokensOut := a.metrics.totalTokensOut + acc.tout } })).modifyAgent id
            (fun a => { a with
              conversationHistory := a.conversationHistory ++
                [{ role := "assistant"
                   content := acc.full
                   timestamp := (st5.modifyAgent id (fun a =>
                     { a with metrics := { a.metrics with
                         totalTokensIn := a.metrics.totalTokensIn + acc.tin
                         totalTokensOut := a.metrics.totalTokensOut + acc.tout } })).now }]
              metrics := { a.metrics with
                totalMessages := a.metrics.totalMessages + 1
                lastActiveAt := some (st5.modifyAgent id (fun a =>
                  { a with metrics := { a.metrics with
                      totalTokensIn := a.metrics.totalTokensIn + acc.tin
                      totalTokensOut := a.metrics.totalTokensOut + acc.tout } })).now }
              currentThinking := "" }) = y7
        rw [hg7] at hq7
        by_cases hproj : agent.project.isSome ∧ depth < MAX_DELEGATION_DEPTH
        · rw [dif_pos hproj]
          by_cases htc : parseToolCalls acc.full [] = []
          · rw [if_pos htc]
            simp only []
            exact Qinv_trans hq7 (htail y7 id agent acc.full turn.chunks)
          · rw [if_neg htc]
            rcases hrt : runToolCalls y7 id (agent.project.getD "")
                (parseToolCalls acc.full []) with ⟨st8, results⟩
            simp only [hrt]
            have hq8 : Qinv st st8 depth := by
              refine Qinv_trans hq7 ?_
              have h8 := Qinv_runToolCalls (parseToolCalls acc.full []) y7 id
                (agent.project.getD "") depth
              rw [hrt] at h8
              exact h8
            by_cases hres : results = []
            · subst hres
              simp only [ne_eq, not_true_eq_false, if_false]
              exact Qinv_trans hq8 (htail st8 id agent acc.full turn.chunks)
            · rw [if_pos hres]
              rcases hsm : sendMessage st8 id
                  ("[TOOL RESULTS]\n" ++ toolResultsSummary results ++ "\n\n" ++
                    continuationPromptFor results)
                  (depth + 1) (some ("tool-result", none)) with ⟨r, st9⟩
              have hq9 : Qinv st st9 depth := by
                refine Qinv_trans hq8 ?_
                have h9 := (ih (depth + 1) (by omega)).2.2 st8 id
                  ("[TOOL RESULTS]\n" ++ toolResultsSummary results ++ "\n\n" ++
                    continuationPromptFor results)
                  (some ("tool-result", none))
                rw [hsm] at h9
                exact Qinv_mono h9 (fun _ => by omega)
              cases r with
              | ok resp =>
                simp only [hsm]
                exact Qinv_trans hq9 (Qinv_setStatusE st9 id .idle depth)
              | error e =>
                simp only [hsm]
                exact Qinv_trans hq9 (Qinv_catchEffects st9 id e depth)
        · rw [dif_neg hproj]
          exact Qinv_trans hq7 (htail y7 id agent acc.full turn.chunks)


/-- The fuelled mirror agrees with the engine whenever the fuel exceeds
the remaining depth budget. -/
theorem engineF_eq :
    ∀ gas depth : Nat, MAX_DELEGATION_DEPTH - depth < gas →
      ∀ (st : Sys) (id : Nat) (msg : String) (meta : Option (String × Option String)),
      sendMessageF gas st id msg depth meta = sendMessage st id msg depth meta := by
  intro gas
  induction gas with
  | zero =>
    intro depth hd
    exact absurd hd (Nat.not_lt_zero _)
  | succ g ih =>
    intro depth hd st id msg meta
    have hsend1 : ∀ (st2 : Sys) (id2 : Nat) (msg2 : String)
        (meta2 : Option (String × Option String)), depth < MAX_DELEGATION_DEPTH →
        sendMessageF g st2 id2 msg2 (depth + 1) meta2
          = sendMessage st2 id2 msg2 (depth + 1) meta2 := by
      intro st2 id2 msg2 meta2 hlt
      exact ih (depth + 1) (by omega) st2 id2 msg2 meta2
    have hdel : ∀ (ds : List Delegation) (st2 : Sys) (lid : Nat) (lname : String)
        (h2 : depth < MAX_DELEGATION_DEPTH),
        runDelegationsF (sendMessageF g) lid lname depth st2 ds
          = runDelegations st2 lid lname ds depth h2 := by
      intro ds
      induction ds with
      | nil =>
        intro st2 lid lname h2
        rw [runDelegations]
        rfl
      | cons dd rest ihd =>
        intro st2 lid lname h2
        rw [runDelegations]
        simp only [runDelegationsF]
        rcases hf : st2.agents.find? (fun e =>
            strLower e.2.name = strLower dd.agentName && e.1 ≠ lid) with _ | ⟨tid, tagent⟩
        · rcases hrec : runDelegations st2 lid lname rest depth h2 with ⟨stD, rs⟩
          have h3 := ihd st2 lid lname h2
          rw [hrec] at h3
          simp only [hf, hrec, h3]
        · simp only [hf]
          rcases hat : addTodoE (st2.emit (.delegationEv lid tid dd.task)) tid
              ("[From " ++ lname ++ "] " ++ dd.task) with ⟨stA, todoq⟩
          rw [hsend1 _ _ _ _ h2]
          rcases hsm : sendMessage stA tid ("[TASK from " ++ lname ++ "]: " ++ dd.task)
              (depth + 1) (some ("delegation-task", some lname)) with ⟨r, stB⟩
          simp only [hsm]
          cases r with
          | ok resp =>
            rcases todoq with _ | t
            · rcases hrec : runDelegations stB lid lname rest depth h2 with ⟨stD, rs⟩
              have h3 := ihd stB lid lname h2
              rw [hrec] at h3
              simp only [hrec, h3]
            · rcases hrec : runDelegations (markTodoDone stB tid t.id) lid lname rest
                  depth h2 with ⟨stD, rs⟩
              have h3 := ihd (markTodoDone stB tid t.id) lid lname h2
              rw [hrec] at h3
              simp only [hrec, h3]
          | error e =>
            rcases hrec : runDelegations stB lid lname rest depth h2 with ⟨stD, rs⟩
            have h3 := ihd stB lid lname h2
            rw [hrec] at h3
            simp only [hrec, h3]
    have htailF : ∀ (st2 : Sys) (id2 : Nat) (agent : AgentR) (full : String)
        (chunks : List Chunk),
        sendTailF (sendMessageF g) st2 id2 agent full chunks depth
          = sendTail st2 id2 agent full chunks depth := by
      intro st2 id2 agent full chunks
      rw [sendTail]
      unfold sendTailF
      simp only []
      by_cases hL : agent.isLeader = true ∧ depth < MAX_DELEGATION_DEPTH
      · rw [dif_pos hL, if_pos hL]
        by_cases hdisp : (dispatchedOf chunks).length > 0
        · rw [if_pos hdisp]
          rw [hdel (dispatchedOf chunks) st2 id2 agent.name hL.2]
          rcases hrd : runDelegations st2 id2 agent.name (dispatchedOf chunks) depth hL.2
              with ⟨stD, results⟩
          simp only [hrd]
          rw [hsend1 _ _ _ _ hL.2]
          rw [if_pos hdisp]
        · rw [if_neg hdisp]
          rw [if_neg hdisp]
      · rw [dif_neg hL, if_neg hL]
    rw [sendMessage]
    simp only [sendMessageF]
    rcases hg : st.getAgent id with _ | agent
    · simp only [hg]
    · simp only [hg]
      generalize hg4 : ((setStatusE { st with trace := st.trace ++ [(id, depth)] }
          id .busy).modifyAgent id
          (fun a => { a with currentThinking := "" })).modifyAgent id
          (fun a => { a with conversationHistory := a.conversationHistory ++
            [{ role := "user"
               content := msg
               timestamp := ((setStatusE { st with trace := st.trace ++ [(id, depth)] }
                 id .busy).modifyAgent id
                 (fun a => { a with currentThinking := "" })).now
               htype := meta.map (fun x => x.1)
               fromAgent := meta.bind (fun x => x.2) }] }) = y4
      rcases hnt : y4.nextTurn with ⟨turn, st5⟩
      simp only [hnt]
      rcases hrun : runStreamF turn.chunks 0 turn.abortAtChunk ⟨"", 0, 0⟩ with accE | acc
      · simp only [hrun]
      · simp only [hrun]
        generalize hg7 : (st5.modifyAgent id (fun a =>
            { a with metrics := { a.metrics with
                totalTokensIn := a.metrics.totalTokensIn + acc.tin
                totalTokensOut := a.metrics.totalTokensOut + acc.tout } })).modifyAgent id
            (fun a => { a with
              conversationHistory := a.conversationHistory ++
                [{ role := "assistant"
                   content := acc.full
                   timestamp := (st5.modifyAgent id (fun a =>
                     { a with metrics := { a.metrics with
                         totalTokensIn := a.metrics.totalTokensIn + acc.tin
                         totalTokensOut := a.metrics.totalTokensOut + acc.tout } })).now }]
              metrics := { a.metrics with
                totalMessages := a.metrics.totalMessages + 1
                lastActiveAt := some (st5.modifyAgent id (fun a =>
                  { a with metrics := { a.metrics with
                      totalTokensIn := a.metrics.totalTokensIn + acc.tin
                      totalTokensOut := a.metrics.totalTokensOut + acc.tout } })).now }
              currentThinking := "" }) = y7
        by_cases hproj : agent.project.isSome ∧ depth < MAX_DELEGATION_DEPTH
        · rw [if_pos hproj, dif_pos hproj]
          by_cases htc : parseToolCalls acc.full [] = []
          · rw [if_pos htc]
            simp only []
            exact htailF y7 id agent acc.full turn.chunks
          · rw [if_neg htc]
            rcases hrt : runToolCalls y7 id (agent.project.getD "")
                (parseToolCalls acc.full []) with ⟨st8, results⟩
            simp only [hrt]
            by_cases hres : results = []
            · subst hres
              simp only [ne_eq, not_true_eq_false, if_false]
              exact htailF st8 id agent acc.full turn.chunks
            · rw [if_pos hres]
              rw [hsend1 _ _ _ _ hproj.2]
              rw [if_pos hres]
        · rw [if_neg hproj, dif_neg hproj]
          exact htailF y7 id agent acc.full turn.chunks


/-- **C6.** Starting from a fresh trace, a depth-0 call into the
conversation engine only ever runs invocations — the call itself and every
recursive tool-result or delegation continuation it spawns — at recursion
depth at most `MAX_DELEGATION_DEPTH = 5`: tool and delegation processing
recurse at `depth + 1` only under a `depth < 5` guard.  (The engine is a
total function, so the recursion also terminates.) -/
theorem sendMessage_depth_bounded (st : Sys) (id : Nat) (msg : String)
    (meta : Option (String × Option String)) (h : st.trace = []) :
    depthsLe (sendMessage st id msg 0 meta).2.trace = true := by
  have hq := (Qinv_engine (MAX_DELEGATION_DEPTH + 1) 0 (by omega)).2.2 st id msg meta
  have ht := hq.2 (by omega)
  unfold depthsLe
  rw [List.all_eq_true]
  intro e he
  rcases ht e he with h2 | h2
  · rw [h] at h2
    exact absurd h2 (List.not_mem_nil e)
  · exact decide_eq_true h2


theorem sendMessage_depth_bounded_witness :
    stAbortC.trace = [] ∧
    depthsLe (sendMessage stAbortC 0 "go" 0 none).2.trace = true :=
  ⟨rfl, sendMessage_depth_bounded stAbortC 0 "go" none rfl⟩


/-- A successful logical turn whose first response contains a tool call
performs one tool-result continuation and ends with `totalMessages = 2`
after starting from 0: the counter does not increase by exactly 1 per
completed turn. -/
theorem sendMessage_totalMessages_counterexample :
    (sendMessage stToolC 0 "go" 0 none).1 = .ok "done!" ∧
    tmOf (sendMessage stToolC 0 "go" 0 none).2 0 = 2 ∧
    tmOf stToolC 0 = 0 := by
  have h := engineF_eq 6 0 (by decide) stToolC 0 "go" none
  refine ⟨?_, ?_, rfl⟩
  · rw [← h]
    rfl
  · rw [← h]
    rfl


/-- **C5.** (amended)  `totalMessages` moves in lock-step with the number
of assistant entries appended to the agent's conversation history: every
completed engine invocation — the initial stream and each recursive
tool-result or delegation continuation — adds one assistant entry and one
`totalMessages` tick, so a logical turn with N continuations adds 1 + N,
not 1. -/
theorem sendMessage_totalMessages_lockstep (st : Sys) (id : Nat) (msg : String)
    (depth : Nat) (meta : Option (String × Option String)) (aid : Nat) :
    tmOf (sendMessage st id msg depth meta).2 aid + acOf st aid
      = tmOf st aid + acOf (sendMessage st id msg depth meta).2 aid :=
  ((Qinv_engine (MAX_DELEGATION_DEPTH - depth + 1) depth (by omega)).2.2
    st id msg meta).1 aid


/-! ## Claims about the registry -/

/-- **C8.** The registry `update` mutates only its whitelisted fields: for
every update payload — including one that names the runtime-state fields —
`status`, `currentThinking`, `metrics` and `conversationHistory` are
unchanged. -/
theorem updateAgent_preserves_runtime (agent : AgentR) (u : UpdatePayload) (now : Nat) :
    (updateAgent agent u now).status = agent.status ∧
    (updateAgent agent u now).currentThinking = agent.currentThinking ∧
    (updateAgent agent u now).metrics = agent.metrics ∧
    (updateAgent agent u now).conversationHistory = agent.conversationHistory :=
  ⟨rfl, rfl, rfl, rfl⟩


theorem unquotedLoop_eq (ms : List (String × String)) :
    ∀ acc, unquotedLoop acc ms = acc ++ loopExt acc ms := by
  induction ms with
  | nil => intro acc; simp [unquotedLoop, loopExt]
  | cons m ms ih =>
    intro acc
    obtain ⟨tool, rawArg⟩ := m
    show unquotedLoop acc ((tool, rawArg) :: ms) = _
    unfold unquotedLoop loopExt
    by_cases hdup : isDupCall acc tool (sanitizeArg rawArg) rawArg
    · simp only [hdup, if_true, ih acc]
    · simp only [hdup, if_false, Bool.false_eq_true, ih (acc ++ [⟨tool, [rawArg]⟩])]
      simp


/-- No call appended by the unquoted pass duplicates (tool, args) of a call
that was already collected when the pass ran. -/
theorem loopExt_no_dup_of_acc (ms : List (String × String)) :
    ∀ acc tc, tc ∈ acc → ∀ y ∈ loopExt acc ms, ¬ (tc.tool = y.tool ∧ tc.args = y.args) := by
  induction ms with
  | nil => intro acc tc _ y hy; simp [loopExt] at hy
  | cons m ms ih =>
    intro acc tc htc y hy
    obtain ⟨tool, rawArg⟩ := m
    unfold loopExt at hy
    by_cases hdup : isDupCall acc tool (sanitizeArg rawArg) rawArg
    · simp only [hdup, if_true] at hy
      exact ih acc tc htc y hy
    · simp only [hdup, if_false, Bool.false_eq_true, List.mem_cons] at hy
      rcases hy with hy | hy
      · subst hy
        rintro ⟨h1, h2⟩
        apply hdup
        unfold isDupCall
        rw [List.any_eq_true]
        exact ⟨tc, htc, by simp [h1, h2]⟩
      · exact ih (acc ++ [⟨tool, [rawArg]⟩]) tc (by simp [htc]) y hy


/-- The calls appended by the unquoted pass are pairwise distinct in
(tool, args). -/
theorem loopExt_pairwise (ms : List (String × String)) :
    ∀ acc, List.Pairwise (fun a b => ¬ (a.tool = b.tool ∧ a.args = b.args))
      (loopExt acc ms) := by
  induction ms with
  | nil => intro acc; simp [loopExt]
  | cons m ms ih =>
    intro acc
    obtain ⟨tool, rawArg⟩ := m
    unfold loopExt
    by_cases hdup : isDupCall acc tool (sanitizeArg rawArg) rawArg
    · simp only [hdup, if_true]
      exact ih acc
    · simp only [hdup, if_false, Bool.false_eq_true]
      refine List.Pairwise.cons ?_ (ih (acc ++ [⟨tool, [rawArg]⟩]))
      intro y hy
      exact loopExt_no_dup_of_acc ms (acc ++ [⟨tool, [rawArg]⟩]) ⟨tool, [rawArg]⟩
        (by simp) y hy


/-! ## Claims about the tool dispatcher -/

/-- **C1.** For every tool call carrying a path argument (`read_file`,
`write_file`, `append_file`, `list_dir`), if the canonical form of the
project root joined with the (normalised) path does not start with the
project root, the dispatcher returns `success = false` with error
"Path traversal not allowed" and performs no filesystem operation: the
filesystem is returned unchanged. -/
theorem executeTool_path_traversal_guard
    (fs : Fs) (execs : List ExecOut) (projectPath rawPath content : String)
    (hacc : fs.hasDir (pathJoin PROJECTS_BASE projectPath) = true)
    (hne : sanitizeArg rawPath ≠ "")
    (htrav : strStartsWith (pathJoin (pathJoin PROJECTS_BASE projectPath)
        (normalizePath (sanitizeArg rawPath) (pathJoin PROJECTS_BASE projectPath)))
        (pathJoin PROJECTS_BASE projectPath) = false) :
    executeTool "read_file" [rawPath] projectPath fs execs = (traversalErr, fs) ∧
    executeTool "write_file" [rawPath, content] projectPath fs execs = (traversalErr, fs) ∧
    executeTool "list_dir" [rawPath] projectPath fs execs = (traversalErr, fs) ∧
    executeTool "append_file" [rawPath, content] projectPath fs execs = (traversalErr, fs) := by
  refine ⟨?_, ?_, ?_, ?_⟩ <;>
    simp [executeTool, executeTool.orDot, readFileFromProject, writeFileToProject,
      listDirectory, appendToFile, hacc, hne, htrav]


/-- Witness for C1: `@read_file(../x)` (and the other three path tools) on
project `p` is rejected with "Path traversal not allowed". -/
theorem executeTool_path_traversal_guard_witness :
    executeTool "read_file" ["../x"] "p" ⟨[("/projects/p/a.txt", "hello")], ["/projects/p"]⟩ []
      = (traversalErr, ⟨[("/projects/p/a.txt", "hello")], ["/projects/p"]⟩) :=
  (executeTool_path_traversal_guard ⟨[("/projects/p/a.txt", "hello")], ["/projects/p"]⟩ []
    "p" "../x" "c" (by decide) (by decide) (by decide)).1


/-- **C2.** If any of the eight blocklist regexes matches the command passed
to `run_command`, the dispatcher answers `success = false` with
"Command blocked for security reasons"; the result does not depend on the
shell oracle `o`, i.e. no shell is invoked. -/
theorem runCommand_blocklist (cmd : String) (h : commandBlocked cmd = true) (o : ExecOut) :
    runCommand cmd o =
      { success := false, error := some "Command blocked for security reasons" } := by
  unfold runCommand
  rw [h]
  rfl


/-- Witness for C2: `rm -rf /` matches the blocklist and is refused even
though the shell oracle would have reported a clean exit. -/
theorem runCommand_blocklist_witness :
    commandBlocked "rm -rf /" = true ∧
    runCommand "rm -rf /" ⟨0, "ok", "", false⟩ =
      { success := false, error := some "Command blocked for security reasons" } :=
  ⟨by decide, runCommand_blocklist "rm -rf /" (by decide) ⟨0, "ok", "", false⟩⟩


/-- **C3 counterexample.** The claim says a `run_command` whose shell process
exits non-zero yields `success = true`.  It does not: promisified `exec`
rejects on a non-zero exit code, and the dispatcher's catch branch returns
`success = false` (with the exec error message, attaching stderr-or-stdout).
Concretely, exit code 2 yields `success = false`. -/
theorem runCommand_nonzero_exit_counterexample :
    (runCommand "ls missing" ⟨2, "", "ls: missing: No such file or directory", false⟩).success
      = false := by decide


/-- **C3 amended.** A `run_command` invocation that is not blocklisted
returns `success = true` with `stdout`-else-`stderr`-else-"(no output)"
(truncated to 10000) exactly when the shell process exits zero and is not
killed by the timeout; a non-zero exit or a timeout kill is rejected by
promisified `exec` and yields `success = false` with the exec error message
and stderr-or-stdout attached as the result. -/
theorem runCommand_exec_contract (cmd : String) (o : ExecOut)
    (hb : commandBlocked cmd = false) :
    (o.killed = false ∧ o.exitCode = 0 →
      runCommand cmd o =
        { success := true,
          result := some (strTake (if o.stdout ≠ "" then o.stdout
            else if o.stderr ≠ "" then o.stderr else "(no output)") 10000) }) ∧
    (o.killed = true ∨ o.exitCode ≠ 0 →
      runCommand cmd o =
        { success := false,
          error := some (execFailMsg cmd o),
          result := some (if o.stderr ≠ "" then o.stderr else o.stdout) }) := by
  constructor
  · rintro ⟨hk, he⟩
    unfold runCommand runExec
    rw [hb]
    simp [hk, he]
  · intro h
    unfold runCommand runExec
    rw [hb]
    have hcond : (o.killed || decide (o.exitCode ≠ 0)) = true := by
      rcases h with h | h <;> simp [h]
    simp only [hcond]
    simp


/-- Witness for C3 (amended): a non-zero exit produces the failure-shaped
result. -/
theorem runCommand_exec_contract_witness :
    runCommand "ls missing" ⟨2, "", "ls: missing: No such file or directory", false⟩ =
      { success := false,
        error := some "Command failed: ls missing\nls: missing: No such file or directory",
        result := some "ls: missing: No such file or directory" } :=
  (runCommand_exec_contract "ls missing" ⟨2, "", "ls: missing: No such file or directory", false⟩
    (by decide)).2 (Or.inr (by decide))


/-- **C9 counterexample.** The claim says creating a new file with
`append_file` inserts no separator before the appended content.  It does:
the empty existing content does not end with a newline, so the source
prepends `"\n"`.  Appending "abc" to a non-existent `n.txt` stores "\nabc",
not "abc". -/
theorem appendToFile_newfile_counterexample :
    ((executeTool "append_file" ["n.txt", "abc"] "p" ⟨[], ["/projects/p"]⟩ []).2.read
        "/projects/p/n.txt" = some "\nabc") ∧ "\nabc" ≠ "abc" := by decide


/-- **C9 amended.** `append_file` stores the previous content followed by
the appended content, with a single `"\n"` separator inserted exactly when
the previous content does not already end with a newline — where a missing
file counts as previous content `""`, which lacks a newline, so creating a
new file also gets the separator. -/
theorem appendToFile_contract (fs : Fs) (basePath filePath content : String)
    (h : strStartsWith (pathJoin basePath filePath) basePath = true) :
    (appendToFile fs basePath filePath content).1.success = true ∧
    (appendToFile fs basePath filePath content).2.read (pathJoin basePath filePath) =
      some ((fs.read (pathJoin basePath filePath)).getD "" ++
        (if strEndsWith ((fs.read (pathJoin basePath filePath)).getD "") "\n" then "" else "\n") ++
        content) := by
  have hful : (!strStartsWith (pathJoin basePath filePath) basePath) = false := by
    rw [h]; rfl
  simp [appendToFile, hful, Fs.read_write_self, Fs.read_mkdirRec]


/-- **C10.** Within one response, the unquoted inline pass never yields two
ToolCalls with the same (tool, argument) pair: the duplicate check against
the already-collected calls suppresses later unquoted occurrences, also when
the earlier occurrence was itself unquoted.  Stated for every response and
every phase-1 (JSON) result: the calls appended after the quoted passes are
pairwise distinct in (tool, args). -/
theorem parseToolCalls_unquoted_dedup (response : String) (jsonCalls : List ToolCall) :
    List.Pairwise (fun a b => ¬ (a.tool = b.tool ∧ a.args = b.args))
      ((parseToolCalls response jsonCalls).drop (preUnquoted response jsonCalls).length) := by
  unfold parseToolCalls
  rw [unquotedLoop_eq, List.drop_left]
  exact loopExt_pairwise _ _


/-- Witness for C9 (amended): appending to a file that already ends with a
newline inserts no separator. -/
theorem appendToFile_contract_witness :
    (appendToFile ⟨[("/projects/p/log.txt", "one\n")], ["/projects/p"]⟩
        "/projects/p" "log.txt" "two").2.read "/projects/p/log.txt" = some "one\ntwo" :=
  ((appendToFile_contract ⟨[("/projects/p/log.txt", "one\n")], ["/projects/p"]⟩
    "/projects/p" "log.txt" "two" (by decide)).2).trans (by decide)


end SwarmSpec
